import Mathlib

/-!
Verification of core kernel components of the rcore-camp repository:
the Banker's-algorithm deadlock detector (`src/os/src/task/process.rs`),
the stride scheduler's ready queue (`src/os/src/task/manager.rs`), the
easy-fs VFS inode layer (`src/easy-fs/src/vfs.rs`), and the
process-management syscalls (`src/os/src/syscall/process.rs`).

Machine integers are modelled as `Nat` with explicit wrap-around
(`% 2^64` for `usize`, `% 2^32` for `u32`) where the source can
overflow.  Code that can panic (failed `assert!`, `unwrap()` of `None`,
out-of-bounds indexing, or a provably non-terminating loop) is modelled
as an `Option`-returning function where `none` means the call does not
return normally.
-/

/-! ## Banker's-algorithm deadlock detector (`DLDCBInner`) -/

namespace Banker

/-- `2^64`, the modulus of `usize` arithmetic. -/
def W64 : Nat := 2 ^ 64

/-- Wrapping `usize` subtraction (release-mode semantics). -/
def wsub64 (a b : Nat) : Nat := (a + (W64 - b % W64)) % W64

/-- One row of the sparse matrices: `Vec<Option<usize>>`. -/
abbrev Row := List (Option Nat)

/-- A sparse matrix: `Vec<Option<Vec<Option<usize>>>>`. -/
abbrev Matrix := List (Option Row)

/-- The deadlock-detector state `DLDCBInner`. -/
structure DLDCB where
  avail : Row
  alloc : Matrix
  need : Matrix
deriving Repr, DecidableEq

/-- The fresh per-thread row built by `add_thread`: one slot per `avail`
slot, `Some(0)` exactly where `avail` is present. -/
def newRowOf (avail : Row) : Row := avail.map (fun a => a.map (fun _ => 0))

/-- `add_thread`'s `add_to_matrix` closure applied to one matrix.  The
`assert!(matrix[id].is_none())` failure is `none`. -/
def addThreadTo (avail : Row) (id : Nat) (m : Matrix) : Option Matrix :=
  if id < m.length then
    match m[id]? with
    | some none => some (m.set id (some (newRowOf avail)))
    | _ => none
  else
    some (m ++ List.replicate (id - m.length) none ++ [some (newRowOf avail)])

/-- `DLDCBInner::add_thread`. -/
def addThread (s : DLDCB) (id : Nat) : Option DLDCB :=
  match addThreadTo s.avail id s.alloc with
  | none => none
  | some al =>
    match addThreadTo s.avail id s.need with
    | none => none
    | some nd => some { s with alloc := al, need := nd }

/-- Row update of `add_res` in the `res_type < avail.len()` branch:
`assert!(b[res_type].is_none()); b[res_type] = Some(0)`.  Out-of-bounds
indexing or a failed assert is `none`. -/
def setResRow (rt : Nat) (row : Row) : Option Row :=
  match row[rt]? with
  | some none => some (row.set rt (some 0))
  | _ => none

/-- Row update of `add_res` in the extending branch:
`while b.len() != res_type { b.push(None) } ; b.push(Some(0))`.  When the
row is already longer than `res_type` the `while` never terminates;
that divergence is modelled as `none`. -/
def extendResRow (rt : Nat) (row : Row) : Option Row :=
  if row.length ≤ rt then some (row ++ List.replicate (rt - row.length) none ++ [some 0])
  else none

/-- Apply a fallible row update to every present row of a matrix. -/
def mapRows (f : Row → Option Row) : Matrix → Option Matrix
  | [] => some []
  | none :: rest => (mapRows f rest).map (none :: ·)
  | some row :: rest =>
    match f row with
    | none => none
    | some row2 => (mapRows f rest).map (some row2 :: ·)

/-- `DLDCBInner::add_res`. -/
def addRes (s : DLDCB) (rt v : Nat) : Option DLDCB :=
  if rt < s.avail.length then
    match s.avail[rt]? with
    | some none =>
      (match mapRows (setResRow rt) s.alloc, mapRows (setResRow rt) s.need with
       | some al, some nd =>
         some { avail := s.avail.set rt (some v), alloc := al, need := nd }
       | _, _ => none)
    | _ => none
  else
    match mapRows (extendResRow rt) s.alloc, mapRows (extendResRow rt) s.need with
    | some al, some nd =>
      some { avail := s.avail ++ List.replicate (rt - s.avail.length) none ++ [some v],
             alloc := al, need := nd }
    | _, _ => none

/-- The inner loop of the `find` closure in the safety check: walk a
`need` row, comparing each present entry with `work[j]`;
`work[j].as_ref().unwrap()` of an absent or out-of-range slot is a
panic (`none`). -/
def canFinish (work : Row) : Row → Nat → Option Bool
  | [], _ => some true
  | none :: rest, j => canFinish work rest (j + 1)
  | some nd :: rest, j =>
    match work[j]? with
    | some (some w) => if w < nd then some false else canFinish work rest (j + 1)
    | _ => none

/-- The `find` over `finish.iter().enumerate()`: the first unfinished
index whose `need` row (absent rows trivially) is below `work`.
`some none` = no task found, `some (some i)` = task `i` found,
`none` = a panic inside the closure. -/
def findTask (need : Matrix) (work : Row) : List Bool → Nat → Option (Option Nat)
  | [], _ => some none
  | f :: rest, i =>
    if f then findTask need work rest (i + 1)
    else
      match need[i]? with
      | none => none
      | some none => some (some i)
      | some (some row) =>
        match canFinish work row 0 with
        | none => none
        | some true => some (some i)
        | some false => findTask need work rest (i + 1)

/-- The `work` update once task `i` is chosen: for every present `work`
slot `j`, `work[j] += alloc[i].unwrap()[j].unwrap()` — the two unwraps
panic (`none`) on an absent thread or slot. -/
def updateWork (alloc : Matrix) (i : Nat) : Row → Nat → Option Row
  | [], _ => some []
  | none :: rest, j => (updateWork alloc i rest (j + 1)).map (none :: ·)
  | some w :: rest, j =>
    match alloc[i]? with
    | some (some row) =>
      match row[j]? with
      | some (some g) => (updateWork alloc i rest (j + 1)).map (some ((w + g) % W64) :: ·)
      | _ => none
    | _ => none

/-- The safety-check loop of `get_resource`: repeatedly find a
finishable task, add its allocation to `work` and mark it finished. -/
def safetyLoop (need alloc : Matrix) (work : Row) (finish : List Bool) : Option (List Bool) :=
  match h : findTask need work finish 0 with
  | none => none
  | some none => some finish
  | some (some i) =>
    match updateWork alloc i work 0 with
    | none => none
    | some work2 => safetyLoop need alloc work2 (finish.set i true)
termination_by finish.count false
decreasing_by
  have key : ∀ (fin : List Bool) (i0 k : Nat), findTask need work fin i0 = some (some k) →
      i0 ≤ k ∧ fin[k - i0]? = some false := by
    intro fin
    induction fin with
    | nil => intro i0 k hk; simp [findTask] at hk
    | cons b t ih =>
      intro i0 k hk
      cases b with
      | true =>
        simp only [findTask, if_true] at hk
        obtain ⟨h1, h2⟩ := ih (i0 + 1) k hk
        refine ⟨by omega, ?_⟩
        have he : k - i0 = (k - (i0 + 1)) + 1 := by omega
        rw [he]
        simpa using h2
      | false =>
        simp only [findTask, Bool.false_eq_true, if_false] at hk
        split at hk
        · exact absurd hk (by simp)
        · simp only [Option.some.injEq] at hk
          subst hk
          simp
        · split at hk
          · exact absurd hk (by simp)
          · simp only [Option.some.injEq] at hk
            subst hk
            simp
          · obtain ⟨h1, h2⟩ := ih (i0 + 1) k hk
            refine ⟨by omega, ?_⟩
            have he : k - i0 = (k - (i0 + 1)) + 1 := by omega
            rw [he]
            simpa using h2
  have hfin : finish[i]? = some false := by
    have := (key finish 0 i h).2
    simpa using this
  have dec : ∀ (l : List Bool) (k : Nat), l[k]? = some false →
      (l.set k true).count false < l.count false := by
    intro l
    induction l with
    | nil => intro k hk; simp at hk
    | cons b t ih =>
      intro k hk
      cases k with
      | zero =>
        have : b = false := by simpa using hk
        subst this
        simp [List.count_cons]
      | succ j =>
        have := ih j (by simpa using hk)
        simp only [List.set_cons_succ, List.count_cons]
        omega
  exact dec finish i hfin

/-- `DLDCBInner::get_resource(request_resource, thread_id, res_type)`.
Returns the new state and the `isize` result, or `none` on a panic. -/
def getResource (s : DLDCB) (req tid rt : Nat) : Option (DLDCB × Int) :=
  match s.avail[rt]?, s.alloc[tid]?, s.need[tid]? with
  | some (some a), some (some allocRow), some (some needRow) =>
    (match allocRow[rt]?, needRow[rt]? with
     | some (some g), some (some _) =>
       let s2 : DLDCB :=
         if a < req then
           { s with need := s.need.set tid (some (needRow.set rt (some req))) }
         else
           { avail := s.avail.set rt (some (a - req)),
             alloc := s.alloc.set tid (some (allocRow.set rt (some ((g + req) % W64)))),
             need := s.need.set tid (some (needRow.set rt (some 0))) }
       match safetyLoop s2.need s2.alloc s2.avail (List.replicate s2.alloc.length false) with
       | none => none
       | some finish2 =>
         if finish2.any (fun x => !x) then some (s, -1) else some (s2, 0)
     | _, _ => none)
  | _, _, _ => none

/-- `DLDCBInner::release_resource(released_resource, thread_id, res_type)`. -/
def releaseResource (s : DLDCB) (amt tid rt : Nat) : Option DLDCB :=
  match s.avail[rt]? with
  | some (some a) =>
    match s.alloc[tid]? with
    | some (some row) =>
      match s.need[tid]? with
      | some (some _) =>
        match row[rt]? with
        | some (some g) =>
          some { avail := s.avail.set rt (some ((a + amt) % W64)),
                 alloc := s.alloc.set tid (some (row.set rt (some (wsub64 g amt)))),
                 need := s.need }
        | _ => none
      | _ => none
    | _ => none
  | _ => none

/-- A row matches the shape of `avail`: same length and `Some` exactly
where `avail` is `Some`.  Absent rows are unconstrained. -/
def rowOkB (avail : Row) : Option Row → Bool
  | none => true
  | some row => row.map Option.isSome == avail.map Option.isSome

/-- The shape invariant of claim C9. -/
def Inv (s : DLDCB) : Prop :=
  (∀ r ∈ s.alloc, rowOkB s.avail r = true) ∧ (∀ r ∈ s.need, rowOkB s.avail r = true)

instance : DecidablePred Inv := fun s => by unfold Inv; infer_instance

/-- Absence of absent thread slots: `alloc` and `need` have equal length
and every slot is present. -/
def NoGaps (s : DLDCB) : Prop :=
  s.alloc.length = s.need.length ∧
  (∀ r ∈ s.alloc, r.isSome = true) ∧ (∀ r ∈ s.need, r.isSome = true)

instance : DecidablePred NoGaps := fun s => by unfold NoGaps; infer_instance

/-- A reachable detector state with an absent thread slot at index 0
(obtained by `add_thread(1)` then `add_res(0, 1)` on a fresh block). -/
def gapStateC1 : DLDCB :=
  { avail := [some 1], alloc := [none, some [some 0]], need := [none, some [some 0]] }

/-- A second detector state with an absent thread slot, used for C9. -/
def gapStateC9 : DLDCB :=
  { avail := [some 5], alloc := [none, some [some 0]], need := [none, some [some 0]] }

end Banker

/-! ## Stride scheduler ready queue (`TaskManager` over `BinaryHeap<PTCB>`)

A queued task is modelled as a pair `(stride, tag)`; the tag
distinguishes tasks and plays no role in the ordering, exactly as
`PTCB`'s `Ord` instance compares only `stride` (reversed, so the
`BinaryHeap` max-heap pops the minimum stride).  `siftUpGo`,
`siftDownGo` and `popHeap` model the Rust standard library's
`BinaryHeap::push`/`pop` (`sift_up`, `sift_down_to_bottom`, hole at
`pos` holding `elt`; both call sites use `start = 0`). -/

namespace Sched

/-- A queued task: `(stride, tag)`. -/
abbrev PT := Nat × Nat

/-- The `Ord`-instance test `a <= b` on `PTCB`: reversed stride order. -/
def hLe (a b : PT) : Bool := decide (b.1 ≤ a.1)

/-- `BinaryHeap::sift_up(0, pos)`: the hole at `pos` holds `elt`; move
parents down while they compare strictly below `elt`, then fill the
hole.  (The out-of-range parent branch is unreachable for `pos <
l.length`.) -/
def siftUpGo (l : List PT) (elt : PT) (pos : Nat) : List PT :=
  if pos = 0 then l.set 0 elt
  else
    match l[(pos - 1) / 2]? with
    | none => l.set pos elt
    | some p => if hLe elt p then l.set pos elt else siftUpGo (l.set pos p) elt ((pos - 1) / 2)
termination_by pos
decreasing_by omega

/-- `BinaryHeap::push`: append, then sift up from the last slot. -/
def pushH (l : List PT) (x : PT) : List PT := siftUpGo (l ++ [x]) x l.length

/-- The descent loop of `BinaryHeap::sift_down_to_bottom`: move the
hole to the greater child all the way to the bottom, returning the
final list and hole position.  The hole's element is never read. -/
def siftDownGo (l : List PT) (pos : Nat) : List PT × Nat :=
  if h1 : 2 * pos + 2 < l.length then
    if hLe (l.getD (2 * pos + 1) default) (l.getD (2 * pos + 2) default) then
      siftDownGo (l.set pos (l.getD (2 * pos + 2) default)) (2 * pos + 2)
    else
      siftDownGo (l.set pos (l.getD (2 * pos + 1) default)) (2 * pos + 1)
  else if h2 : 2 * pos + 2 = l.length then
    (l.set pos (l.getD (2 * pos + 1) default), 2 * pos + 1)
  else (l, pos)
termination_by l.length - pos
decreasing_by
  · simp only [List.length_set]; omega
  · simp only [List.length_set]; omega

/-- `BinaryHeap::sift_down_to_bottom(pos)` for `pos = 0`: descend to
the bottom, then sift the hole element back up. -/
def siftDown (l : List PT) (elt : PT) : List PT :=
  siftUpGo (siftDownGo l 0).1 elt (siftDownGo l 0).2

/-- `BinaryHeap::pop`, i.e. `TaskManager::fetch`: pop the last element;
if the heap is still non-empty swap it with the root and sift down. -/
def popHeap (l : List PT) : Option (PT × List PT) :=
  match l.getLast? with
  | none => none
  | some item =>
    match l.dropLast with
    | [] => some (item, [])
    | r0 :: rest => some (r0, siftDown ((r0 :: rest).set 0 item) item)

/-- The element at index `i` (default `(0, 0)` out of range; all uses
stay in range). -/
def nth (l : List PT) (i : Nat) : PT := l.getD i default

/-- The max-heap invariant of the reversed order: every parent's stride
is `≤` its children's strides. -/
def IsHeap (l : List PT) : Prop :=
  ∀ j, j < l.length → 0 < j → (nth l ((j - 1) / 2)).1 ≤ (nth l j).1

instance : DecidablePred IsHeap := fun l => by unfold IsHeap nth; infer_instance

/-- Sift-up invariant: with `elt` written into the hole `pos`, every
parent-child pair except the one at the hole itself satisfies the heap
property. -/
def UpInv (l : List PT) (elt : PT) (pos : Nat) : Prop :=
  ∀ j, j < l.length → 0 < j → j ≠ pos →
    (nth (l.set pos elt) ((j - 1) / 2)).1 ≤ (nth (l.set pos elt) j).1

/-- Hole invariant: the hole's children are bounded below (in stride)
by the hole's parent. -/
def HoleBelow (l : List PT) (pos : Nat) : Prop :=
  0 < pos → ∀ j, j < l.length → (j - 1) / 2 = pos → j ≠ pos →
    (nth l ((pos - 1) / 2)).1 ≤ (nth l j).1

/-- Sift-down invariant: every parent-child pair not involving the
hole satisfies the heap property. -/
def DownInv (l : List PT) (pos : Nat) : Prop :=
  ∀ j, j < l.length → 0 < j → j ≠ pos → (j - 1) / 2 ≠ pos →
    (nth l ((j - 1) / 2)).1 ≤ (nth l j).1

/-- Ready-queue states reachable by `TaskManager::add` / `fetch` from
the empty queue. -/
inductive Reach : List PT → Prop
  | nil : Reach []
  | push (l : List PT) (x : PT) : Reach l → Reach (pushH l x)
  | pop (l : List PT) (x : PT) (l2 : List PT) : Reach l → popHeap l = some (x, l2) → Reach l2

end Sched

/-! ## Easy-fs VFS inode layer (`Inode` in `src/easy-fs/src/vfs.rs`)

The on-disk layer (`DiskInode`, `EasyFileSystem` allocation, block
cache) is not part of the provided sources; its behaviour is modelled
from the spec at directory-entry granularity: a directory is the list
of its 32-byte `DirEntry` slots, and each inode carries its type,
`nlink`, size and owned data blocks. -/

namespace Efs

/-- `2^32`, the modulus of `u32` arithmetic (`nlink`). -/
def W32 : Nat := 2 ^ 32

/-- A 32-byte directory entry: a name and an inode id.  The all-zero
tombstone is `⟨"", 0⟩` (a zeroed name reads back as the empty string). -/
structure DirEntry where
  name : String
  inodeId : Nat
deriving Repr, DecidableEq

/-- `DirEntry::empty()`: the all-zero entry. -/
def emptyDirEntry : DirEntry := ⟨"", 0⟩

/-- `DiskInodeType`. -/
inductive FType
  | file
  | dir
deriving Repr, DecidableEq

/-- Modelled from the spec: the per-inode on-disk state a `DiskInode`
carries — type, `nlink`, size, and the data blocks it owns. -/
structure DiskInode where
  ftype : FType
  nlink : Nat
  size : Nat
  blocks : List Nat
deriving Repr, DecidableEq

/-- Modelled from the spec: `DiskInode::initialize(File)` for a freshly
allocated inode — a `File` of size 0 with no data blocks, whose single
upcoming directory entry gives it `nlink = 1`. -/
def fileInit : DiskInode := { ftype := .file, nlink := 1, size := 0, blocks := [] }

/-- The filesystem state seen by one parent directory: the directory's
entry slots, the inode table (`alloc_inode` never deallocates, so the
allocated inodes are exactly the indices of the list), and the free
data-block pool that `dealloc_data` returns blocks to. -/
structure FsState where
  dir : List DirEntry
  inodes : List DiskInode
  dataFree : List Nat
deriving Repr, DecidableEq

/-- `Inode::find_inode_id(name)`: first directory entry with the given
name, if any. -/
def findInodeId (s : FsState) (name : String) : Option Nat :=
  (s.dir.find? (fun e => e.name == name)).map (fun e => e.inodeId)

/-- Update the inode slot `i` in place (inode ids in directory entries
always lie inside the table, so the out-of-range no-op is unreachable). -/
def modifyInode (l : List DiskInode) (i : Nat) (f : DiskInode → DiskInode) : List DiskInode :=
  match l[i]? with
  | some d => l.set i (f d)
  | none => l

/-- `Inode::create_child(name, inode)`: reject duplicates, then either
allocate and initialize a fresh inode (`inode = none`) or increment
`nlink` on the given target, and append one directory entry after
growing the directory by one `DirEntry`.  Returns the id behind the
returned inode handle. -/
def createChild (s : FsState) (name : String) (inode : Option Nat) : Option Nat × FsState :=
  if (findInodeId s name).isSome then (none, s)
  else
    match inode with
    | none =>
      let id := s.inodes.length
      (some id, { s with inodes := s.inodes ++ [fileInit], dir := s.dir ++ [⟨name, id⟩] })
    | some id =>
      let ino2 := modifyInode s.inodes id (fun d => { d with nlink := (d.nlink + 1) % W32 })
      (some id, { s with inodes := ino2, dir := s.dir ++ [⟨name, id⟩] })

/-- `Inode::create(name)`. -/
def create (s : FsState) (name : String) : Option Nat × FsState := createChild s name none

/-- `Inode::create_link_id(name, from_inode_id)`. -/
def createLinkId (s : FsState) (name : String) (fromId : Nat) : Option Nat × FsState :=
  createChild s name (some fromId)

/-- The dirent-zeroing scan of `destroy_link`: overwrite the first
entry with the given name by the all-zero entry. -/
def zeroFirst : List DirEntry → String → List DirEntry
  | [], _ => []
  | e :: rest, name =>
    if e.name == name then emptyDirEntry :: rest else e :: zeroFirst rest name

/-- `Inode::clear` on inode `id`: `clear_size` returns every owned data
block, each is handed to `dealloc_data`, and the size becomes 0. -/
def clearInode (s : FsState) (id : Nat) : FsState :=
  match s.inodes[id]? with
  | some d =>
    let cleared : DiskInode := { d with size := 0, blocks := [] }
    { s with inodes := s.inodes.set id cleared, dataFree := s.dataFree ++ d.blocks }
  | none => s

/-- `Inode::destroy_link(name)`: locate the entry (via `find`),
decrement the target's `nlink` (u32, wrapping), `clear` the target when
the decremented `nlink` is 0, zero the first matching directory entry,
and return 0; `-1` when the name is absent. -/
def destroyLink (s : FsState) (name : String) : Int × FsState :=
  match findInodeId s name with
  | none => (-1, s)
  | some tid =>
    let n2 := ((s.inodes.getD tid fileInit).nlink + (W32 - 1)) % W32
    let s1 := { s with inodes := modifyInode s.inodes tid (fun d => { d with nlink := n2 }) }
    let s2 := if n2 = 0 then clearInode s1 tid else s1
    (0, { s2 with dir := zeroFirst s2.dir name })

/-- `Inode::ls`: the names of all directory entry slots, tombstones
included. -/
def ls (s : FsState) : List String := s.dir.map (fun e => e.name)

/-- The empty root directory of a fresh filesystem, for the C5
counterexample. -/
def emptyFs : FsState := { dir := [], inodes := [], dataFree := [] }

end Efs

/-! ## Process-management syscalls (`src/os/src/syscall/process.rs`) -/

namespace KernelSys

/-- The value of `pid as usize` for a signed 64-bit `pid`. -/
def pidAsUsize (pid : Int) : Nat := (pid % (2 ^ 64 : Int)).toNat

/-- The value of `n as isize` for an unsigned 64-bit `n`. -/
def usizeAsIsize (n : Nat) : Int :=
  if n % 2 ^ 64 < 2 ^ 63 then (n % 2 ^ 64 : Int) else (n % 2 ^ 64 : Int) - 2 ^ 64

/-- A child process record as seen by `sys_waitpid`: its pid, whether
it is a zombie, and its exit code. -/
structure Child where
  pid : Nat
  isZombie : Bool
  exitCode : Int
deriving Repr, DecidableEq

/-- The match test in `sys_waitpid`: `pid == -1 || pid as usize == p.getpid()`. -/
def waitMatches (pid : Int) (p : Child) : Bool :=
  pid == -1 || pidAsUsize pid == p.pid

/-- The `find` + `children.remove(idx)` step of `sys_waitpid`: remove
the first zombie child matching `pid`, returning it and the remaining
list. -/
def removeFirstZombie (pid : Int) : List Child → Option (Child × List Child)
  | [] => none
  | c :: rest =>
    if c.isZombie && waitMatches pid c then some (c, rest)
    else (removeFirstZombie pid rest).map (fun p => (p.1, c :: p.2))

/-- `sys_waitpid(pid, exit_code_ptr)` on a children list: the syscall
result, the new children list, and the exit code written through the
caller's page table (if any). -/
def sys_waitpid (pid : Int) (children : List Child) : Int × List Child × Option Int :=
  if !children.any (waitMatches pid) then (-1, children, none)
  else
    match removeFirstZombie pid children with
    | some (child, rest) => (usizeAsIsize child.pid, rest, some child.exitCode)
    | none => (-2, children, none)

/-- A `MapPermission` set. -/
structure Perm where
  r : Bool
  w : Bool
  x : Bool
  u : Bool
deriving Repr, DecidableEq

/-- The permission built by `sys_mmap`: `U` plus `R`/`W`/`X` for port
bits 0/1/2. -/
def permOfPort (port : Nat) : Perm :=
  { r := port &&& 0b001 != 0, w := port &&& 0b010 != 0, x := port &&& 0b100 != 0, u := true }

/-- The address-space state `sys_mmap`/`sys_munmap` act on: the set of
mapped virtual page numbers, the number of physical frames the
allocator can still hand out, and the installed framed areas. -/
structure MemSet where
  mapped : List Nat
  freeFrames : Nat
  areas : List (Nat × Nat × Perm)
deriving Repr, DecidableEq

/-- The virtual page numbers covered by `[vstart, vend)`. -/
def vpnRange (vstart vend : Nat) : List Nat :=
  (List.range ((vend + 4095) / 4096 - vstart / 4096)).map (fun k => k + vstart / 4096)

/-- Modelled from the spec: `MemorySet::try_insert_framed_area(vstart,
vend, perm)` — fails (-1) if `vstart` is not page-aligned, any VPN in
the range is already mapped, or frame allocation fails; otherwise
installs a new framed area and returns 0. -/
def tryInsertFramedArea (ms : MemSet) (vstart vend : Nat) (perm : Perm) : Int × MemSet :=
  if vstart % 4096 ≠ 0 then (-1, ms)
  else if (vpnRange vstart vend).any (fun v => ms.mapped.contains v) then (-1, ms)
  else if ms.freeFrames < (vpnRange vstart vend).length then (-1, ms)
  else (0, { mapped := ms.mapped ++ vpnRange vstart vend,
             freeFrames := ms.freeFrames - (vpnRange vstart vend).length,
             areas := ms.areas ++ [(vstart, vend, perm)] })

/-- Modelled from the spec: `MemorySet::try_remove_area(vstart, vend)`
— fails (-1) if any VPN in the range is not currently mapped;
otherwise removes the containing areas and returns 0. -/
def tryRemoveArea (ms : MemSet) (vstart vend : Nat) : Int × MemSet :=
  if (vpnRange vstart vend).all (fun v => ms.mapped.contains v) then
    (0, { mapped := ms.mapped.filter (fun v => !(vpnRange vstart vend).contains v),
          freeFrames := ms.freeFrames + (vpnRange vstart vend).length,
          areas := ms.areas.filter
            (fun a => !(vpnRange a.1 a.2.1).any (fun v => (vpnRange vstart vend).contains v)) })
  else (-1, ms)

/-- `sys_mmap(start, len, port)`. -/
def sys_mmap (start len port : Nat) (ms : MemSet) : Int × MemSet :=
  if start % 4096 ≠ 0 then (-1, ms)
  else if len = 0 then (0, ms)
  else if (port ||| 0b111) != 0b111 || (port &&& 0b111) == 0 then (-1, ms)
  else tryInsertFramedArea ms start (start + len) (permOfPort port)

/-- `sys_munmap(start, len)`. -/
def sys_munmap (start len : Nat) (ms : MemSet) : Int × MemSet :=
  if start % 4096 ≠ 0 then (-1, ms)
  else if len = 0 then (0, ms)
  else tryRemoveArea ms start (start + len)

/-- The little-endian byte view of an `n`-byte machine word. -/
def leBytes : Nat → Nat → List Nat
  | 0, _ => []
  | k + 1, n => n % 256 :: leBytes k (n / 256)

/-- The byte view of a `TimeVal { sec, usec }`: two little-endian
64-bit words. -/
def timeValBytes (sec usec : Nat) : List Nat := leBytes 8 sec ++ leBytes 8 usec

/-- `copy_to_buffers(src, dest)` with running offset `beg`: fill each
destination slice in order; the slice that reaches the end of `src`
takes the remaining bytes in its prefix and the loop breaks, leaving
later slices untouched. -/
def copyToBuffersGo (src : List Nat) (beg : Nat) : List (List Nat) → List (List Nat)
  | [] => []
  | buf :: rest =>
    if buf.length < src.length - beg then
      (src.drop beg).take buf.length :: copyToBuffersGo src (beg + buf.length) rest
    else
      (src.drop beg ++ buf.drop (src.length - beg)) :: rest

/-- `copy_to_buffers(src, dest)`. -/
def copyToBuffers (src : List Nat) (dest : List (List Nat)) : List (List Nat) :=
  copyToBuffersGo src 0 dest

/-- `sys_get_time(ts, tz)` for clock reading `us`: `copy_to_app` of
`TimeVal { sec: us / 1_000_000, usec: us % 1_000_000 }` into the
kernel-slice list `dest` that `translated_byte_buffer` resolved the
user pointer to (modelled from the spec as an arbitrary slice list),
returning 0. -/
def sys_get_time (us : Nat) (dest : List (List Nat)) : Int × List (List Nat) :=
  (0, copyToBuffers (timeValBytes (us / 1000000) (us % 1000000)) dest)

end KernelSys

/-! ## Theorems -/

namespace KernelSys

theorem removeFirstZombie_eq_none (pid : Int) (l : List Child) :
    removeFirstZombie pid l = none ↔
      ∀ c ∈ l, ¬(c.isZombie = true ∧ waitMatches pid c = true) := by
  induction l with
  | nil => simp [removeFirstZombie]
  | cons c rest ih =>
    by_cases hc : c.isZombie && waitMatches pid c
    · simp only [removeFirstZombie, if_pos hc]
      simp only [Bool.and_eq_true] at hc
      simp [hc]
    · simp only [removeFirstZombie, if_neg hc]
      simp only [Bool.and_eq_true] at hc
      constructor
      · intro h
        rcases Option.map_eq_none'.mp h with h2
        intro d hd
        rcases List.mem_cons.mp hd with hd | hd
        · subst hd; exact hc
        · exact (ih.mp h2) d hd
      · intro h
        rw [Option.map_eq_none']
        exact ih.mpr (fun d hd => h d (by simp [hd]))

theorem removeFirstZombie_eq_some (pid : Int) (l : List Child) (c : Child) (rest : List Child)
    (h : removeFirstZombie pid l = some (c, rest)) :
    ∃ pre post, l = pre ++ c :: post ∧ rest = pre ++ post ∧
      c.isZombie = true ∧ waitMatches pid c = true ∧
      ∀ x ∈ pre, ¬(x.isZombie = true ∧ waitMatches pid x = true) := by
  induction l generalizing rest with
  | nil => simp [removeFirstZombie] at h
  | cons d tl ih =>
    by_cases hd : d.isZombie && waitMatches pid d
    · simp only [removeFirstZombie, if_pos hd] at h
      simp only [Option.some.injEq, Prod.mk.injEq] at h
      obtain ⟨h1, h2⟩ := h
      subst h1; subst h2
      simp only [Bool.and_eq_true] at hd
      exact ⟨[], tl, rfl, rfl, hd.1, hd.2, by simp⟩
    · simp only [removeFirstZombie, if_neg hd] at h
      rcases Option.map_eq_some'.mp h with ⟨⟨c2, rest2⟩, hc2, heq⟩
      simp only [Prod.mk.injEq] at heq
      obtain ⟨he1, he2⟩ := heq
      subst he1
      obtain ⟨pre, post, hp1, hp2, hp3, hp4, hp5⟩ := ih rest2 hc2
      refine ⟨d :: pre, post, by simp [hp1], by simp [← he2, hp2], hp3, hp4, ?_⟩
      intro x hx
      rcases List.mem_cons.mp hx with hx2 | hx2
      · subst hx2
        simp only [Bool.and_eq_true] at hd
        exact hd
      · exact hp5 x hx2

theorem usizeAsIsize_of_lt (n : Nat) (h : n < 2 ^ 63) : usizeAsIsize n = (n : Int) := by
  unfold usizeAsIsize
  have hm : n % 2 ^ 64 = n := Nat.mod_eq_of_lt (lt_of_lt_of_le h (by norm_num))
  have e63 : (2 : Nat) ^ 63 = 9223372036854775808 := by norm_num
  have e64i : (2 : Int) ^ 64 = 18446744073709551616 := by norm_num
  rw [hm, if_pos h, e64i]
  rw [e63] at h
  omega

/-- C6: `sys_waitpid(pid, out)` returns -1 when no child matches `pid`
(`pid = -1` matching any child), -2 when matching children exist but
none is a zombie, and when a matching zombie child exists it removes
exactly one — the first matching zombie in the list — hands out that
child's `exit_code` for the copy into user memory, and returns the
child's pid. -/
theorem c6_sys_waitpid (pid : Int) (children : List Child)
    (hpids : ∀ c ∈ children, c.pid < 2 ^ 63) :
    ((∀ c ∈ children, waitMatches pid c = false) →
       sys_waitpid pid children = (-1, children, none)) ∧
    ((∃ c ∈ children, waitMatches pid c = true) →
     (∀ c ∈ children, waitMatches pid c = true → c.isZombie = false) →
       sys_waitpid pid children = (-2, children, none)) ∧
    ((∃ c ∈ children, waitMatches pid c = true ∧ c.isZombie = true) →
      ∃ pre c post, children = pre ++ c :: post ∧
        c.isZombie = true ∧ waitMatches pid c = true ∧
        (∀ x ∈ pre, ¬(x.isZombie = true ∧ waitMatches pid x = true)) ∧
        sys_waitpid pid children = ((c.pid : Int), pre ++ post, some c.exitCode)) := by
  refine ⟨?_, ?_, ?_⟩
  · intro h
    have hany : children.any (waitMatches pid) = false := by
      simp only [List.any_eq_false]
      intro c hc
      simp [h c hc]
    simp [sys_waitpid, hany]
  · intro ⟨c0, hc0, hm0⟩ hnz
    have hany : children.any (waitMatches pid) = true :=
      List.any_eq_true.mpr ⟨c0, hc0, hm0⟩
    have hnone : removeFirstZombie pid children = none := by
      rw [removeFirstZombie_eq_none]
      intro c hc ⟨hz, hm⟩
      rw [hnz c hc hm] at hz
      exact Bool.false_ne_true hz
    simp [sys_waitpid, hany, hnone]
  · intro ⟨c0, hc0, hm0, hz0⟩
    have hany : children.any (waitMatches pid) = true :=
      List.any_eq_true.mpr ⟨c0, hc0, hm0⟩
    cases hrm : removeFirstZombie pid children with
    | none =>
      exact absurd ⟨hz0, hm0⟩ ((removeFirstZombie_eq_none pid children).mp hrm c0 hc0)
    | some p =>
      obtain ⟨c, rest⟩ := p
      obtain ⟨pre, post, hp1, hp2, hp3, hp4, hp5⟩ :=
        removeFirstZombie_eq_some pid children c rest hrm
      refine ⟨pre, c, post, hp1, hp3, hp4, hp5, ?_⟩
      have hval : sys_waitpid pid children = (usizeAsIsize c.pid, rest, some c.exitCode) := by
        simp only [sys_waitpid, hany, Bool.not_true, Bool.false_eq_true, if_false, hrm]
      have hcmem : c ∈ children := by rw [hp1]; simp
      rw [hval, hp2, usizeAsIsize_of_lt c.pid (hpids c hcmem)]

/-- C6 witness: a successful concrete call — child 3 is a zombie with
exit code 7, and `sys_waitpid(3, ..)` removes it, writes 7 and
returns 3. -/
theorem c6_sys_waitpid_witness :
    (∀ c ∈ [Child.mk 2 false 0, Child.mk 3 true 7], c.pid < 2 ^ 63) ∧
    (∃ c ∈ [Child.mk 2 false 0, Child.mk 3 true 7],
      waitMatches 3 c = true ∧ c.isZombie = true) ∧
    (∃ pre c post, [Child.mk 2 false 0, Child.mk 3 true 7] = pre ++ c :: post ∧
      c.isZombie = true ∧ waitMatches 3 c = true ∧
      (∀ x ∈ pre, ¬(x.isZombie = true ∧ waitMatches 3 x = true)) ∧
      sys_waitpid 3 [Child.mk 2 false 0, Child.mk 3 true 7]
        = ((c.pid : Int), pre ++ post, some c.exitCode)) ∧
    sys_waitpid 3 [Child.mk 2 false 0, Child.mk 3 true 7]
      = (3, [Child.mk 2 false 0], some 7) :=
  ⟨by decide, by decide,
   (c6_sys_waitpid 3 [Child.mk 2 false 0, Child.mk 3 true 7] (by decide)).2.2 (by decide),
   by decide⟩

/-- C10: with `len = 0` and a page-aligned `start`, `sys_mmap` returns
0 for every port value (the zero-length check precedes the port
validation) and `sys_munmap` returns 0, neither touching the memory
set. -/
theorem c10_zero_length_mmap_munmap (start port : Nat) (ms : MemSet)
    (h : start % 4096 = 0) :
    sys_mmap start 0 port ms = (0, ms) ∧ sys_munmap start 0 ms = (0, ms) := by
  unfold sys_mmap sys_munmap
  simp [h]

/-- C10 witness: `start = 4096`, an invalid port 99, a non-trivial
memory set. -/
theorem c10_zero_length_witness :
    4096 % 4096 = 0 ∧
    (sys_mmap 4096 0 99 (MemSet.mk [7] 0 []) = (0, MemSet.mk [7] 0 []) ∧
     sys_munmap 4096 0 (MemSet.mk [7] 0 []) = (0, MemSet.mk [7] 0 [])) :=
  ⟨rfl, c10_zero_length_mmap_munmap 4096 99 (MemSet.mk [7] 0 []) rfl⟩

end KernelSys

namespace KernelSys

theorem copyToBuffersGo_spec (src : List Nat) (dest : List (List Nat)) : ∀ (beg : Nat),
    beg ≤ src.length → src.length - beg ≤ (dest.map List.length).sum →
    ((copyToBuffersGo src beg dest).map List.length = dest.map List.length ∧
     (copyToBuffersGo src beg dest).flatten.take (src.length - beg) = src.drop beg) := by
  induction dest with
  | nil =>
    intro beg hb hs
    simp only [List.map_nil, List.sum_nil, Nat.le_zero] at hs
    have : beg = src.length := by omega
    subst this
    simp [copyToBuffersGo]
  | cons buf rest ih =>
    intro beg hb hs
    by_cases hlt : buf.length < src.length - beg
    · simp only [copyToBuffersGo, if_pos hlt]
      simp only [List.map_cons, List.sum_cons] at hs
      obtain ⟨ih1, ih2⟩ := ih (beg + buf.length) (by omega) (by omega)
      constructor
      · simp only [List.map_cons, ih1, List.length_take, List.length_drop]
        congr 1
        omega
      · simp only [List.flatten_cons]
        have hlen : ((src.drop beg).take buf.length).length = buf.length := by
          simp only [List.length_take, List.length_drop]
          omega
        have hta := @List.take_append Nat ((src.drop beg).take buf.length)
          ((copyToBuffersGo src (beg + buf.length) rest).flatten)
          (src.length - (beg + buf.length))
        rw [hlen] at hta
        have hsplit : src.length - beg = buf.length + (src.length - (beg + buf.length)) := by
          omega
        rw [hsplit, hta, ih2, ← List.drop_drop, List.take_append_drop]
    · simp only [copyToBuffersGo, if_neg hlt]
      push_neg at hlt
      constructor
      · simp only [List.map_cons, List.length_append, List.length_drop, List.length_take]
        congr 1
        omega
      · simp only [List.flatten_cons]
        have hlen : (src.drop beg).length = src.length - beg := by
          simp
        have hta := @List.take_append Nat (src.drop beg)
          (buf.drop (src.length - beg) ++ rest.flatten) 0
        rw [hlen, Nat.add_zero] at hta
        rw [List.append_assoc, hta]
        simp

/-- C8: `sys_get_time` writes a `TimeVal` with `sec = us / 1_000_000`
and `usec = us % 1_000_000` and returns 0; `copy_to_app` writes the
value's bytes in order across the translated kernel slices, so for
every destination slice list of total length at least 16 (in
particular a two-slice list when the `TimeVal` straddles a page
boundary) the concatenated destination bytes equal the source bytes. -/
theorem c8_sys_get_time (us : Nat) (dest : List (List Nat))
    (h : 16 ≤ (dest.map List.length).sum) :
    (sys_get_time us dest).1 = 0 ∧
    ((sys_get_time us dest).2.map List.length = dest.map List.length) ∧
    ((sys_get_time us dest).2.flatten.take 16
      = timeValBytes (us / 1000000) (us % 1000000)) ∧
    (∀ (src : List Nat) (d : List (List Nat)), src.length ≤ (d.map List.length).sum →
      (copyToBuffers src d).map List.length = d.map List.length ∧
      (copyToBuffers src d).flatten.take src.length = src) := by
  have hlen : ∀ a b : Nat, (timeValBytes a b).length = 16 := by
    intro a b
    simp [timeValBytes, leBytes]
  refine ⟨rfl, ?_, ?_, ?_⟩
  · exact (copyToBuffersGo_spec _ dest 0 (by omega) (by rw [Nat.sub_zero, hlen]; exact h)).1
  · have := (copyToBuffersGo_spec (timeValBytes (us / 1000000) (us % 1000000)) dest 0
      (by omega) (by rw [Nat.sub_zero, hlen]; exact h)).2
    rw [Nat.sub_zero, hlen] at this
    simpa [sys_get_time, copyToBuffers] using this
  · intro src d hd
    have h2 := copyToBuffersGo_spec src d 0 (by omega) (by omega)
    rw [Nat.sub_zero] at h2
    simpa [copyToBuffers] using h2

/-- C8 witness: a 16-byte `TimeVal` split across two 12-byte slices. -/
theorem c8_sys_get_time_witness :
    16 ≤ ([List.replicate 12 0, List.replicate 12 0].map List.length).sum ∧
    ((sys_get_time 2500000 [List.replicate 12 0, List.replicate 12 0]).1 = 0 ∧
     ((sys_get_time 2500000 [List.replicate 12 0, List.replicate 12 0]).2.map List.length
        = [List.replicate 12 0, List.replicate 12 0].map List.length) ∧
     ((sys_get_time 2500000 [List.replicate 12 0, List.replicate 12 0]).2.flatten.take 16
        = timeValBytes (2500000 / 1000000) (2500000 % 1000000)) ∧
     (∀ (src : List Nat) (d : List (List Nat)), src.length ≤ (d.map List.length).sum →
       (copyToBuffers src d).map List.length = d.map List.length ∧
       (copyToBuffers src d).flatten.take src.length = src)) :=
  ⟨by decide, c8_sys_get_time 2500000 [List.replicate 12 0, List.replicate 12 0] (by decide)⟩

end KernelSys

namespace KernelSys

theorem contains_eq_true_iff_mem (l : List Nat) (v : Nat) : l.contains v = true ↔ v ∈ l := by
  show List.elem v l = true ↔ v ∈ l
  exact List.elem_iff

/-- C7: for positive `len`, `sys_mmap(start, len, port)` returns -1
when `start` is not page-aligned, when `port` has a bit outside bits
0..2, or when `port & 0b111 == 0`; otherwise it asks the memory set to
insert a framed area over `[start, start + len)` with permission `U`
plus `R`/`W`/`X` exactly for the set port bits, which returns 0 and
installs the area on success and -1 (state unchanged) when a page is
already mapped or frames run out. -/
theorem c7_sys_mmap (start len port : Nat) (ms : MemSet) (hlen : 0 < len) :
    ((start % 4096 ≠ 0 ∨ (port ||| 0b111) ≠ 0b111 ∨ (port &&& 0b111) = 0) →
      sys_mmap start len port ms = (-1, ms)) ∧
    (start % 4096 = 0 → (port ||| 0b111) = 0b111 → (port &&& 0b111) ≠ 0 →
      (sys_mmap start len port ms
          = tryInsertFramedArea ms start (start + len) (permOfPort port) ∧
       (permOfPort port).u = true ∧
       ((permOfPort port).r = true ↔ port &&& 0b001 ≠ 0) ∧
       ((permOfPort port).w = true ↔ port &&& 0b010 ≠ 0) ∧
       ((permOfPort port).x = true ↔ port &&& 0b100 ≠ 0) ∧
       ((∀ v ∈ vpnRange start (start + len), v ∉ ms.mapped) →
          (vpnRange start (start + len)).length ≤ ms.freeFrames →
          sys_mmap start len port ms
            = (0, { mapped := ms.mapped ++ vpnRange start (start + len),
                    freeFrames := ms.freeFrames - (vpnRange start (start + len)).length,
                    areas := ms.areas ++ [(start, start + len, permOfPort port)] })) ∧
       (((∃ v ∈ vpnRange start (start + len), v ∈ ms.mapped) ∨
           ms.freeFrames < (vpnRange start (start + len)).length) →
          sys_mmap start len port ms = (-1, ms)))) := by
  have hlen2 : len ≠ 0 := by omega
  constructor
  · intro hbad
    rcases hbad with hb | hb | hb
    · simp [sys_mmap, hb]
    · have hcondT : ((port ||| 0b111) != 0b111 || (port &&& 0b111) == 0) = true := by
        simp [hb]
      unfold sys_mmap
      by_cases ha : start % 4096 ≠ 0
      · rw [if_pos ha]
      · rw [if_neg ha, if_neg hlen2, if_pos hcondT]
    · have hcondT : ((port ||| 0b111) != 0b111 || (port &&& 0b111) == 0) = true := by
        simp [hb]
      unfold sys_mmap
      by_cases ha : start % 4096 ≠ 0
      · rw [if_pos ha]
      · rw [if_neg ha, if_neg hlen2, if_pos hcondT]
  · intro ha hp1 hp2
    have hcond : ((port ||| 0b111) != 0b111 || (port &&& 0b111) == 0) = false := by
      simp [hp1, hp2]
    have hmain : sys_mmap start len port ms
        = tryInsertFramedArea ms start (start + len) (permOfPort port) := by
      unfold sys_mmap
      rw [if_neg (by simp [ha]), if_neg hlen2, if_neg (by rw [hcond]; simp)]
    refine ⟨hmain, rfl, by simp [permOfPort], by simp [permOfPort], by simp [permOfPort],
      ?_, ?_⟩
    · intro hno hframes
      have hany : ((vpnRange start (start + len)).any (fun v => ms.mapped.contains v)) = false := by
        rw [List.any_eq_false]
        intro v hv
        rw [contains_eq_true_iff_mem]
        exact hno v hv
      have hfr : ¬(ms.freeFrames < (vpnRange start (start + len)).length) := by omega
      rw [hmain]
      unfold tryInsertFramedArea
      rw [if_neg (by simp [ha]), if_neg (by rw [hany]; simp), if_neg hfr]
    · intro hbad
      rw [hmain]
      unfold tryInsertFramedArea
      rw [if_neg (by simp [ha])]
      rcases hbad with ⟨v, hv, hvm⟩ | hfr
      · have hany : ((vpnRange start (start + len)).any (fun v => ms.mapped.contains v)) = true := by
          rw [List.any_eq_true]
          exact ⟨v, hv, (contains_eq_true_iff_mem _ _).mpr hvm⟩
        rw [if_pos hany]
      · by_cases hany : ((vpnRange start (start + len)).any (fun v => ms.mapped.contains v)) = true
        · rw [if_pos hany]
        · rw [if_neg hany, if_pos hfr]

/-- C7 witness: a valid R|W request of one page at `0x10000000` on an
address space with one free frame, plus a rejected misaligned request. -/
theorem c7_sys_mmap_witness :
    0 < 4096 ∧
    (sys_mmap 268435456 4096 3 (MemSet.mk [] 1 [])
        = tryInsertFramedArea (MemSet.mk [] 1 []) 268435456 (268435456 + 4096) (permOfPort 3) ∧
     (permOfPort 3).u = true) ∧
    (sys_mmap 268435457 4096 3 (MemSet.mk [] 1 []) = (-1, MemSet.mk [] 1 [])) := by
  have h1 := (c7_sys_mmap 268435456 4096 3 (MemSet.mk [] 1 []) (by decide)).2
      (by decide) (by decide) (by decide)
  have h2 := (c7_sys_mmap 268435457 4096 3 (MemSet.mk [] 1 []) (by decide)).1
      (Or.inl (by decide))
  exact ⟨by decide, ⟨h1.1, h1.2.1⟩, h2⟩

end KernelSys

namespace Efs

theorem find?_name_of_split (pre : List DirEntry) (e : DirEntry) (post : List DirEntry)
    (name : String) (hpre : ∀ x ∈ pre, x.name ≠ name) (he : e.name = name) :
    (pre ++ e :: post).find? (fun x => x.name == name) = some e := by
  induction pre with
  | nil =>
    simp only [List.nil_append, List.find?_cons]
    rw [show (e.name == name) = true by simp [he]]
  | cons a tl ih =>
    have ha : a.name ≠ name := hpre a (by simp)
    simp only [List.cons_append, List.find?_cons]
    rw [show (a.name == name) = false by simp [ha]]
    exact ih (fun x hx => hpre x (by simp [hx]))

theorem find?_name_eq_none (l : List DirEntry) (name : String)
    (h : ∀ x ∈ l, x.name ≠ name) :
    l.find? (fun x => x.name == name) = none := by
  rw [List.find?_eq_none]
  intro x hx
  simp [h x hx]

theorem zeroFirst_append_of_no_match (l m : List DirEntry) (name : String)
    (h : ∀ x ∈ l, x.name ≠ name) :
    zeroFirst (l ++ m) name = l ++ zeroFirst m name := by
  induction l with
  | nil => simp
  | cons a tl ih =>
    have ha : a.name ≠ name := h a (by simp)
    simp only [List.cons_append, zeroFirst]
    rw [show (a.name == name) = false by simp [ha], if_neg (by simp)]
    exact congrArg (fun z => a :: z) (ih (fun x hx => h x (by simp [hx])))

theorem zeroFirst_of_split (pre : List DirEntry) (e : DirEntry) (post : List DirEntry)
    (name : String) (hpre : ∀ x ∈ pre, x.name ≠ name) (he : e.name = name) :
    zeroFirst (pre ++ e :: post) name = pre ++ emptyDirEntry :: post := by
  rw [zeroFirst_append_of_no_match pre (e :: post) name hpre]
  simp only [zeroFirst]
  rw [show (e.name == name) = true by simp [he], if_pos rfl]

/-- C3: for a name present in the directory, `destroy_link(name)`
decrements the target inode's `nlink`, frees all of the target's data
blocks (via `clear`) exactly when the decremented `nlink` is 0,
overwrites the matching directory entry with zeros, and returns 0; for
an absent name it returns -1. -/
theorem c3_destroy_link (s : FsState) (name : String) :
    ((∀ e ∈ s.dir, e.name ≠ name) → destroyLink s name = (-1, s)) ∧
    (∀ pre e post d, s.dir = pre ++ e :: post → (∀ x ∈ pre, x.name ≠ name) → e.name = name →
      s.inodes[e.inodeId]? = some d → 0 < d.nlink → d.nlink < W32 →
      ∃ s2, destroyLink s name = (0, s2) ∧
        s2.dir = pre ++ emptyDirEntry :: post ∧
        s2.inodes[e.inodeId]? = some ⟨d.ftype, d.nlink - 1,
          if d.nlink = 1 then 0 else d.size, if d.nlink = 1 then [] else d.blocks⟩ ∧
        (s2.dataFree = if d.nlink = 1 then s.dataFree ++ d.blocks else s.dataFree) ∧
        (∀ j, j ≠ e.inodeId → s2.inodes[j]? = s.inodes[j]?) ∧
        s2.inodes.length = s.inodes.length) := by
  constructor
  · intro h
    have hf : findInodeId s name = none := by
      unfold findInodeId
      rw [find?_name_eq_none s.dir name h]
      rfl
    simp [destroyLink, hf]
  · intro pre e post d hsplit hpre hename hinode hpos hlt
    have hf : findInodeId s name = some e.inodeId := by
      unfold findInodeId
      rw [hsplit, find?_name_of_split pre e post name hpre hename]
      rfl
    have e32 : W32 = 4294967296 := by norm_num [W32]
    rw [e32] at hlt
    have hgd : s.inodes.getD e.inodeId fileInit = d := by
      rw [List.getD_eq_getElem?_getD, hinode]
      rfl
    have hn2 : ((s.inodes.getD e.inodeId fileInit).nlink + (W32 - 1)) % W32 = d.nlink - 1 := by
      rw [hgd, e32]
      omega
    have hmod : modifyInode s.inodes e.inodeId (fun x => { x with nlink := d.nlink - 1 })
        = s.inodes.set e.inodeId { d with nlink := d.nlink - 1 } := by
      unfold modifyInode
      rw [hinode]
    simp only [destroyLink, hf, hn2, hmod]
    by_cases hone : d.nlink = 1
    · have hz : d.nlink - 1 = 0 := by omega
      rw [hz, if_pos rfl]
      have hilen : e.inodeId < s.inodes.length := by
        by_contra hc
        rw [List.getElem?_eq_none (by omega)] at hinode
        exact Option.noConfusion hinode
      refine ⟨_, rfl, ?_, ?_, ?_, ?_, ?_⟩
      · show zeroFirst (clearInode _ e.inodeId).dir name = pre ++ emptyDirEntry :: post
        unfold clearInode
        rw [List.getElem?_set, if_pos rfl, if_pos (by simpa using hilen)]
        show zeroFirst s.dir name = _
        rw [hsplit]
        exact zeroFirst_of_split pre e post name hpre hename
      · show (clearInode _ e.inodeId).inodes[e.inodeId]? = _
        unfold clearInode
        rw [List.getElem?_set, if_pos rfl, if_pos (by simpa using hilen)]
        show ((s.inodes.set e.inodeId _).set e.inodeId _)[e.inodeId]? = _
        rw [List.getElem?_set, if_pos rfl, if_pos (by simpa using hilen)]
        simp [hone, hz]
      · show (clearInode _ e.inodeId).dataFree = _
        unfold clearInode
        rw [List.getElem?_set, if_pos rfl, if_pos (by simpa using hilen)]
        simp [hone]
      · intro j hj
        show (clearInode _ e.inodeId).inodes[j]? = _
        unfold clearInode
        rw [List.getElem?_set, if_pos rfl, if_pos (by simpa using hilen)]
        show ((s.inodes.set e.inodeId _).set e.inodeId _)[j]? = _
        rw [List.getElem?_set, if_neg (fun hc => hj hc.symm),
            List.getElem?_set, if_neg (fun hc => hj hc.symm)]
      · show (clearInode _ e.inodeId).inodes.length = _
        unfold clearInode
        rw [List.getElem?_set, if_pos rfl, if_pos (by simpa using hilen)]
        simp
    · have hz : d.nlink - 1 ≠ 0 := by omega
      rw [if_neg hz]
      refine ⟨_, rfl, ?_, ?_, ?_, ?_, ?_⟩
      · show zeroFirst s.dir name = _
        rw [hsplit]
        exact zeroFirst_of_split pre e post name hpre hename
      · show (s.inodes.set e.inodeId _)[e.inodeId]? = _
        have hilen : e.inodeId < s.inodes.length := by
          by_contra hc
          rw [List.getElem?_eq_none (by omega)] at hinode
          exact Option.noConfusion hinode
        rw [List.getElem?_set, if_pos rfl, if_pos (by simpa using hilen)]
        simp [hone]
      · simp [hone]
      · intro j hj
        show (s.inodes.set e.inodeId _)[j]? = _
        rw [List.getElem?_set, if_neg (fun hc => hj hc.symm)]
      · simp

end Efs

namespace Efs

/-- C3 witness: unlinking `"a"` (nlink 2) from a one-entry directory. -/
theorem c3_destroy_link_witness :
    ((0 : Nat) < 2 ∧ (2 : Nat) < W32) ∧
    (∃ s2, destroyLink ⟨[⟨"a", 0⟩], [⟨FType.file, 2, 5, [3]⟩], []⟩ "a" = (0, s2) ∧
      s2.dir = [emptyDirEntry] ∧
      s2.inodes[0]? = some ⟨FType.file, 1, 5, [3]⟩ ∧
      s2.dataFree = ([] : List Nat) ∧
      (∀ j, j ≠ 0 → s2.inodes[j]? = ([⟨FType.file, 2, 5, [3]⟩] : List DiskInode)[j]?) ∧
      s2.inodes.length = 1) := by
  refine ⟨⟨by decide, by decide⟩, ?_⟩
  exact (c3_destroy_link ⟨[⟨"a", 0⟩], [⟨FType.file, 2, 5, [3]⟩], []⟩ "a").2
    [] ⟨"a", 0⟩ [] ⟨FType.file, 2, 5, [3]⟩ rfl (by simp) rfl rfl (by decide) (by decide)

/-- C4: `create(name)` and `create_link_id(name, target)` return `None`
and leave the filesystem unchanged when `name` already exists in the
directory; otherwise `create` allocates the fresh inode
`s.inodes.length` and initializes it as a `File`, `create_link_id`
instead increments `nlink` on the target, and in both cases exactly one
new directory entry carrying the name and the inode id is appended
after growing the directory by one `DirEntry`. -/
theorem c4_create_create_link (s : FsState) (name : String) (target : Nat) :
    ((∃ e ∈ s.dir, e.name = name) →
       create s name = (none, s) ∧ createLinkId s name target = (none, s)) ∧
    ((∀ e ∈ s.dir, e.name ≠ name) →
       (create s name = (some s.inodes.length,
          ⟨s.dir ++ [⟨name, s.inodes.length⟩], s.inodes ++ [fileInit], s.dataFree⟩) ∧
        (∀ d, s.inodes[target]? = some d → d.nlink + 1 < W32 →
          createLinkId s name target = (some target,
            ⟨s.dir ++ [⟨name, target⟩],
             s.inodes.set target ⟨d.ftype, d.nlink + 1, d.size, d.blocks⟩, s.dataFree⟩)))) := by
  constructor
  · intro ⟨e, he, hename⟩
    have hf : (findInodeId s name).isSome = true := by
      unfold findInodeId
      rw [Option.isSome_map', List.find?_isSome]
      exact ⟨e, he, by simp [hename]⟩
    constructor
    · simp [create, createChild, hf]
    · simp [createLinkId, createChild, hf]
  · intro h
    have hf : (findInodeId s name).isSome = false := by
      unfold findInodeId
      rw [find?_name_eq_none s.dir name h]
      rfl
    constructor
    · simp only [create, createChild, hf, Bool.false_eq_true, if_false]
    · intro d hd hlt
      have e32 : W32 = 4294967296 := by norm_num [W32]
      have hmm : (d.nlink + 1) % W32 = d.nlink + 1 := by
        rw [e32] at hlt ⊢
        exact Nat.mod_eq_of_lt hlt
      have hmod : modifyInode s.inodes target (fun x => { x with nlink := (x.nlink + 1) % W32 })
          = s.inodes.set target ⟨d.ftype, d.nlink + 1, d.size, d.blocks⟩ := by
        unfold modifyInode
        rw [hd]
        show s.inodes.set target { d with nlink := (d.nlink + 1) % W32 } = _
        rw [hmm]
      simp only [createLinkId, createChild, hf, Bool.false_eq_true, if_false, hmod]

/-- C4 witness: creating `"b"` and linking `"c"` to inode 0 in a
directory that already holds `"a"`. -/
theorem c4_create_create_link_witness :
    (∀ e ∈ [DirEntry.mk "a" 0], e.name ≠ "b") ∧
    (create ⟨[⟨"a", 0⟩], [⟨FType.file, 1, 0, []⟩], []⟩ "b" = (some 1,
      ⟨[⟨"a", 0⟩, ⟨"b", 1⟩], [⟨FType.file, 1, 0, []⟩, fileInit], []⟩) ∧
     (∀ d, ([⟨FType.file, 1, 0, []⟩] : List DiskInode)[0]? = some d → d.nlink + 1 < W32 →
       createLinkId ⟨[⟨"a", 0⟩], [⟨FType.file, 1, 0, []⟩], []⟩ "b" 0 = (some 0,
         ⟨[⟨"a", 0⟩, ⟨"b", 0⟩],
          ([⟨FType.file, 1, 0, []⟩] : List DiskInode).set 0 ⟨d.ftype, d.nlink + 1, d.size, d.blocks⟩,
          []⟩))) := by
  refine ⟨by decide, ?_⟩
  exact (c4_create_create_link ⟨[⟨"a", 0⟩], [⟨FType.file, 1, 0, []⟩], []⟩ "b" 0).2 (by decide)

/-- C5 counterexample: on an empty root directory, `create("a")`
followed by `destroy_link("a")` leaves `ls` returning `[""]` (the
zeroed entry slot remains), not the original `[]`. -/
theorem c5_ls_not_restored :
    ls ((destroyLink (create emptyFs "a").2 "a").2) = [""] ∧
    ls emptyFs = [] ∧
    ls ((destroyLink (create emptyFs "a").2 "a").2) ≠ ls emptyFs := by
  refine ⟨rfl, rfl, ?_⟩
  decide

/-- C5 (amended): for a name not previously present, `create(name)`
then `destroy_link(name)` leaves `ls` equal to its old value with one
extra empty-string entry appended (the zeroed directory slot); in
particular the multiset of non-empty names is unchanged but `ls` is
not literally identical. -/
theorem c5_create_destroy_ls (s : FsState) (name : String)
    (h : ∀ e ∈ s.dir, e.name ≠ name) :
    ls (destroyLink (create s name).2 name).2 = ls s ++ [""] := by
  have hf : (findInodeId s name).isSome = false := by
    unfold findInodeId
    rw [find?_name_eq_none s.dir name h]
    rfl
  have hcreate : (create s name).2
      = ⟨s.dir ++ [⟨name, s.inodes.length⟩], s.inodes ++ [fileInit], s.dataFree⟩ := by
    simp only [create, createChild, hf, Bool.false_eq_true, if_false]
  rw [hcreate]
  have hfind : findInodeId ⟨s.dir ++ [⟨name, s.inodes.length⟩], s.inodes ++ [fileInit], s.dataFree⟩
      name = some s.inodes.length := by
    unfold findInodeId
    rw [show s.dir ++ [DirEntry.mk name s.inodes.length]
        = s.dir ++ DirEntry.mk name s.inodes.length :: [] from rfl]
    rw [find?_name_of_split s.dir ⟨name, s.inodes.length⟩ [] name h rfl]
    rfl
  have hgd : (s.inodes ++ [fileInit]).getD s.inodes.length fileInit = fileInit := by
    rw [List.getD_eq_getElem?_getD, List.getElem?_concat_length]
    rfl
  have hn2 : ((s.inodes ++ [fileInit]).getD s.inodes.length fileInit).nlink + (W32 - 1) = W32 := by
    rw [hgd]
    show 1 + (W32 - 1) = W32
    have : 0 < W32 := by norm_num [W32]
    omega
  simp only [destroyLink, hfind, hn2, Nat.mod_self, if_pos rfl]
  show ls ⟨zeroFirst _ name, _, _⟩ = _
  unfold ls
  show (zeroFirst ((clearInode _ s.inodes.length).dir) name).map _ = _
  have hdir : ∀ (st : FsState) (id : Nat), (clearInode st id).dir = st.dir := by
    intro st id
    unfold clearInode
    cases st.inodes[id]? <;> rfl
  rw [hdir]
  show (zeroFirst (s.dir ++ [DirEntry.mk name s.inodes.length]) name).map _ = _
  rw [show s.dir ++ [DirEntry.mk name s.inodes.length]
      = s.dir ++ DirEntry.mk name s.inodes.length :: [] from rfl]
  rw [zeroFirst_of_split s.dir ⟨name, s.inodes.length⟩ [] name h rfl]
  simp [emptyDirEntry]

/-- C5 (amended) witness: a directory holding `"x"`. -/
theorem c5_create_destroy_ls_witness :
    (∀ e ∈ [DirEntry.mk "x" 0], e.name ≠ "b") ∧
    ls (destroyLink (create ⟨[⟨"x", 0⟩], [⟨FType.file, 1, 0, []⟩], []⟩ "b").2 "b").2
      = ls ⟨[⟨"x", 0⟩], [⟨FType.file, 1, 0, []⟩], []⟩ ++ [""] :=
  ⟨by decide, c5_create_destroy_ls ⟨[⟨"x", 0⟩], [⟨FType.file, 1, 0, []⟩], []⟩ "b" (by decide)⟩

end Efs

namespace Banker

/-- C1: `get_resource(1, thread_id, res_type)` does not implement the
claimed Banker's step on sparse states: on the reachable state
(`add_thread(1)` then `add_res(0, 1)`) whose slot 0 is an absent
thread, the safety check selects the absent slot (its `need` row is
`None`, so it trivially finishes) and then panics on
`self.alloc[0].as_ref().unwrap()` while adding its allocation to
`work`, instead of skipping it and returning 0. -/
theorem c1_get_resource_panics_on_gap : getResource gapStateC1 1 1 0 = none := by
  have hs : safetyLoop [none, some [some 0]] [none, some [some 1]] [some 0] [false, false]
      = none := by
    rw [safetyLoop]
    split
    · rfl
    · next heq => simp [findTask] at heq
    · next i heq =>
      have hi : i = 0 := by simp [findTask] at heq; omega
      subst hi
      simp [updateWork]
  simp [getResource, gapStateC1, W64, hs]

/-- C9 counterexample: a state satisfying the shape invariant and all
entry assertions of `get_resource` (avail, alloc and need present at
the requested indices) on which `get_resource` nevertheless panics:
the absent thread slot 0 makes `alloc[0].unwrap()` in the safety check
panic. -/
theorem c9_invariant_not_sufficient :
    Inv gapStateC9 ∧ gapStateC9.avail[0]? = some (some 5) ∧
    gapStateC9.alloc[1]? = some (some [some 0]) ∧
    gapStateC9.need[1]? = some (some [some 0]) ∧
    getResource gapStateC9 1 1 0 = none := by
  refine ⟨by decide, rfl, rfl, rfl, ?_⟩
  have hs : safetyLoop [none, some [some 0]] [none, some [some 1]] [some 4] [false, false]
      = none := by
    rw [safetyLoop]
    split
    · rfl
    · next heq => simp [findTask] at heq
    · next i heq =>
      have hi : i = 0 := by simp [findTask] at heq; omega
      subst hi
      simp [updateWork]
  simp [getResource, gapStateC9, W64, hs]

theorem findTask_found (need : Matrix) (work : Row) :
    ∀ (fin : List Bool) (i0 k : Nat), findTask need work fin i0 = some (some k) →
      i0 ≤ k ∧ fin[k - i0]? = some false := by
  intro fin
  induction fin with
  | nil => intro i0 k hk; simp [findTask] at hk
  | cons b t ih =>
    intro i0 k hk
    cases b with
    | true =>
      simp only [findTask, if_true] at hk
      obtain ⟨h1, h2⟩ := ih (i0 + 1) k hk
      refine ⟨by omega, ?_⟩
      have he : k - i0 = (k - (i0 + 1)) + 1 := by omega
      rw [he]
      simpa using h2
    | false =>
      simp only [findTask, Bool.false_eq_true, if_false] at hk
      split at hk
      · exact absurd hk (by simp)
      · simp only [Option.some.injEq] at hk
        subst hk
        simp
      · split at hk
        · exact absurd hk (by simp)
        · simp only [Option.some.injEq] at hk
          subst hk
          simp
        · obtain ⟨h1, h2⟩ := ih (i0 + 1) k hk
          refine ⟨by omega, ?_⟩
          have he : k - i0 = (k - (i0 + 1)) + 1 := by omega
          rw [he]
          simpa using h2

theorem count_false_set_true_lt (l : List Bool) :
    ∀ (k : Nat), l[k]? = some false → (l.set k true).count false < l.count false := by
  induction l with
  | nil => intro k hk; simp at hk
  | cons b t ih =>
    intro k hk
    cases k with
    | zero =>
      have : b = false := by simpa using hk
      subst this
      simp [List.count_cons]
    | succ j =>
      have := ih j (by simpa using hk)
      simp only [List.set_cons_succ, List.count_cons]
      omega

theorem shape_transfer (xs ys : Row)
    (hsh : xs.map Option.isSome = ys.map Option.isSome) (k : Nat) (x : Nat)
    (hx : xs[k]? = some (some x)) : ∃ y, ys[k]? = some (some y) := by
  have h1 : (xs.map Option.isSome)[k]? = some true := by
    rw [List.getElem?_map, hx]
    rfl
  rw [hsh, List.getElem?_map] at h1
  cases hy : ys[k]? with
  | none => rw [hy] at h1; exact absurd h1 (by simp)
  | some o =>
    rw [hy] at h1
    cases o with
    | none => simp at h1
    | some y => exact ⟨y, rfl⟩

theorem set_getElem?_self {α : Type} (l : List α) (i : Nat) (a : α) (h : l[i]? = some a) :
    l.set i a = l := by
  apply List.ext_getElem?
  intro n
  rw [List.getElem?_set]
  by_cases hin : i = n
  · subst hin
    have hlt : i < l.length := by
      by_contra hc
      rw [List.getElem?_eq_none (by omega)] at h
      exact Option.noConfusion h
    rw [if_pos rfl, if_pos hlt, h]
  · rw [if_neg hin]

theorem rowOkB_iff (avail : Row) (row : Row) :
    rowOkB avail (some row) = true ↔ row.map Option.isSome = avail.map Option.isSome := by
  unfold rowOkB
  exact beq_iff_eq

theorem rowOkB_shape_congr (a1 a2 : Row) (h : a1.map Option.isSome = a2.map Option.isSome)
    (r : Option Row) : rowOkB a1 r = rowOkB a2 r := by
  cases r with
  | none => rfl
  | some row => unfold rowOkB; rw [h]

theorem set_shape_self (avail : Row) (rt : Nat) (a v : Nat)
    (h : avail[rt]? = some (some a)) :
    (avail.set rt (some v)).map Option.isSome = avail.map Option.isSome := by
  rw [List.map_set]
  apply set_getElem?_self
  rw [List.getElem?_map, h]
  rfl

end Banker

namespace Banker

theorem canFinish_ne_none (work : Row) :
    ∀ (row : Row) (j : Nat),
      (∀ k nd, row[k]? = some (some nd) → ∃ w, work[j + k]? = some (some w)) →
      canFinish work row j ≠ none := by
  intro row
  induction row with
  | nil => intro j _; simp [canFinish]
  | cons o rest ih =>
    intro j hpre
    cases o with
    | none =>
      show canFinish work rest (j + 1) ≠ none
      apply ih
      intro k nd hk
      have := hpre (k + 1) nd (by simpa using hk)
      rwa [show j + (k + 1) = j + 1 + k by omega] at this
    | some nd =>
      obtain ⟨w, hw⟩ := hpre 0 nd (by simp)
      rw [Nat.add_zero] at hw
      have step : canFinish work (some nd :: rest) j
          = if w < nd then some false else canFinish work rest (j + 1) := by
        show (match work[j]? with
          | some (some w) => if w < nd then some false else canFinish work rest (j + 1)
          | _ => none) = _
        rw [hw]
      rw [step]
      by_cases hlt : w < nd
      · simp [hlt]
      · rw [if_neg hlt]
        apply ih
        intro k nd2 hk
        have := hpre (k + 1) nd2 (by simpa using hk)
        rwa [show j + (k + 1) = j + 1 + k by omega] at this

theorem findTask_ne_none (need : Matrix) (avail work : Row)
    (hw : work.map Option.isSome = avail.map Option.isSome) :
    ∀ (fin : List Bool) (i0 : Nat),
      (∀ i, i0 ≤ i → i < i0 + fin.length → ∃ r, need[i]? = some r ∧ rowOkB avail r = true) →
      findTask need work fin i0 ≠ none := by
  intro fin
  induction fin with
  | nil => intro i0 _; simp [findTask]
  | cons b t ih =>
    intro i0 hpre
    cases b with
    | true =>
      simp only [findTask, if_true]
      apply ih
      intro i h1 h2
      exact hpre i (by omega) (by simp; omega)
    | false =>
      obtain ⟨r, hr, hok⟩ := hpre i0 (by omega) (by simp)
      cases r with
      | none =>
        simp only [findTask, Bool.false_eq_true, if_false]
        rw [hr]
        simp
      | some row =>
        have hsh : row.map Option.isSome = avail.map Option.isSome := (rowOkB_iff _ _).mp hok
        have hcf : canFinish work row 0 ≠ none := by
          apply canFinish_ne_none
          intro k nd hk
          obtain ⟨w, hww⟩ := shape_transfer row work (by rw [hsh, hw]) k nd hk
          exact ⟨w, by simpa using hww⟩
        have step : findTask need work (false :: t) i0
            = (match canFinish work row 0 with
               | none => none
               | some true => some (some i0)
               | some false => findTask need work t (i0 + 1)) := by
          simp only [findTask, Bool.false_eq_true, if_false]
          rw [hr]
        rw [step]
        cases hc : canFinish work row 0 with
        | none => exact absurd hc hcf
        | some bb =>
          cases bb with
          | true => simp
          | false =>
            show findTask need work t (i0 + 1) ≠ none
            apply ih
            intro i h1 h2
            exact hpre i (by omega) (by simp; omega)

theorem updateWork_ok (alloc : Matrix) (i : Nat) (row : Row)
    (hai : alloc[i]? = some (some row)) :
    ∀ (wk : Row) (j : Nat),
      (∀ k w, wk[k]? = some (some w) → ∃ g, row[j + k]? = some (some g)) →
      ∃ wk2, updateWork alloc i wk j = some wk2 ∧
        wk2.map Option.isSome = wk.map Option.isSome := by
  intro wk
  induction wk with
  | nil => intro j _; exact ⟨[], rfl, rfl⟩
  | cons o rest ih =>
    intro j hpre
    cases o with
    | none =>
      obtain ⟨wk2, hup, hsh⟩ := ih (j + 1) (fun k w hk => by
        have := hpre (k + 1) w (by simpa using hk)
        rwa [show j + (k + 1) = j + 1 + k by omega] at this)
      refine ⟨none :: wk2, ?_, by simpa using hsh⟩
      show (updateWork alloc i rest (j + 1)).map (none :: ·) = _
      rw [hup]
      rfl
    | some w =>
      obtain ⟨g, hg⟩ := hpre 0 w (by simp)
      rw [Nat.add_zero] at hg
      obtain ⟨wk2, hup, hsh⟩ := ih (j + 1) (fun k w2 hk => by
        have := hpre (k + 1) w2 (by simpa using hk)
        rwa [show j + (k + 1) = j + 1 + k by omega] at this)
      refine ⟨some ((w + g) % W64) :: wk2, ?_, by simpa using hsh⟩
      have step : updateWork alloc i (some w :: rest) j
          = (updateWork alloc i rest (j + 1)).map (some ((w + g) % W64) :: ·) := by
        show (match alloc[i]? with
          | some (some row) =>
            match row[j]? with
            | some (some g) => (updateWork alloc i rest (j + 1)).map (some ((w + g) % W64) :: ·)
            | _ => none
          | _ => none) = _
        rw [hai]
        show (match row[j]? with
          | some (some g) => (updateWork alloc i rest (j + 1)).map (some ((w + g) % W64) :: ·)
          | _ => none) = _
        rw [hg]
      rw [step, hup]
      rfl

theorem safetyLoop_ok (need alloc : Matrix) (avail : Row)
    (hneed : ∀ r ∈ need, rowOkB avail r = true)
    (hpres : ∀ r ∈ alloc, r.isSome = true)
    (hshape : ∀ r ∈ alloc, rowOkB avail r = true)
    (hlen : alloc.length ≤ need.length) :
    ∀ (n : Nat) (work : Row) (finish : List Bool), finish.count false = n →
      work.map Option.isSome = avail.map Option.isSome →
      finish.length = alloc.length →
      ∃ fin2, safetyLoop need alloc work finish = some fin2 := by
  intro n
  induction n using Nat.strong_induction_on with
  | _ n ihn =>
    intro work finish hcount hw hflen
    rw [safetyLoop]
    split
    · next heq =>
      exfalso
      refine findTask_ne_none need avail work hw finish 0 ?_ heq
      intro i _ h2
      rw [Nat.zero_add, hflen] at h2
      cases hne : need[i]? with
      | none =>
        exfalso
        have hni := List.getElem?_eq_none_iff.mp hne
        omega
      | some r => exact ⟨r, rfl, hneed r (by exact List.getElem?_mem hne)⟩
    · next => exact ⟨finish, rfl⟩
    · next i heq =>
      obtain ⟨-, hfi⟩ := findTask_found need work finish 0 i heq
      rw [Nat.sub_zero] at hfi
      have hilt : i < finish.length := by
        by_contra hc
        rw [List.getElem?_eq_none (by omega)] at hfi
        exact Option.noConfusion hfi
      have hia : i < alloc.length := by omega
      cases hai : alloc[i]? with
      | none =>
        exfalso
        have h0 := List.getElem?_eq_none_iff.mp hai
        omega
      | some r =>
        have hrs : r.isSome = true := hpres r (List.getElem?_mem hai)
        cases r with
        | none => simp at hrs
        | some row =>
          have hrsh : row.map Option.isSome = avail.map Option.isSome :=
            (rowOkB_iff _ _).mp (hshape (some row) (List.getElem?_mem hai))
          obtain ⟨wk2, hup, hsh2⟩ := updateWork_ok alloc i row hai work 0 (fun k w hk => by
            obtain ⟨g, hg⟩ := shape_transfer work row (by rw [hw, hrsh]) k w hk
            exact ⟨g, by simpa using hg⟩)
          rw [hup]
          exact ihn ((finish.set i true).count false)
            (hcount ▸ count_false_set_true_lt finish i hfi) wk2 (finish.set i true) rfl
            (by rw [hsh2, hw]) (by simpa using hflen)

end Banker

namespace Banker

theorem newRowOf_shape (avail : Row) :
    (newRowOf avail).map Option.isSome = avail.map Option.isSome := by
  unfold newRowOf
  rw [List.map_map]
  apply List.map_congr_left
  intro a _
  cases a <;> rfl

theorem rowOkB_newRow (avail : Row) : rowOkB avail (some (newRowOf avail)) = true := by
  rw [rowOkB_iff]
  exact newRowOf_shape avail

theorem addThreadTo_ok (avail : Row) (id : Nat) (m m2 : Matrix)
    (h : addThreadTo avail id m = some m2) (hm : ∀ r ∈ m, rowOkB avail r = true) :
    ∀ r ∈ m2, rowOkB avail r = true := by
  unfold addThreadTo at h
  split at h
  · split at h
    · simp only [Option.some.injEq] at h
      subst h
      intro r hr
      rcases List.mem_or_eq_of_mem_set hr with hr2 | hr2
      · exact hm r hr2
      · subst hr2
        exact rowOkB_newRow avail
    · exact absurd h (by simp)
  · simp only [Option.some.injEq] at h
    subst h
    intro r hr
    rcases List.mem_append.mp hr with hr2 | hr2
    · rcases List.mem_append.mp hr2 with hr3 | hr3
      · exact hm r hr3
      · rw [(List.mem_replicate.mp hr3).2]
        rfl
    · have : r = some (newRowOf avail) := by simpa using hr2
      subst this
      exact rowOkB_newRow avail

theorem addThread_inv (s : DLDCB) (hInv : Inv s) (id : Nat) (s2 : DLDCB)
    (h : addThread s id = some s2) : Inv s2 := by
  unfold addThread at h
  split at h
  · exact absurd h (by simp)
  · next al hal =>
    split at h
    · exact absurd h (by simp)
    · next nd hnd =>
      simp only [Option.some.injEq] at h
      subst h
      exact ⟨addThreadTo_ok s.avail id s.alloc al hal hInv.1,
             addThreadTo_ok s.avail id s.need nd hnd hInv.2⟩

theorem mapRows_preserve (f : Row → Option Row) (P : Option Row → Prop) (Q : Option Row → Prop)
    (hnone : Q none) (hf : ∀ row row2, P (some row) → f row = some row2 → Q (some row2)) :
    ∀ (m m2 : Matrix), mapRows f m = some m2 → (∀ r ∈ m, P r) → ∀ r ∈ m2, Q r := by
  intro m
  induction m with
  | nil =>
    intro m2 h hm r hr
    simp only [mapRows, Option.some.injEq] at h
    subst h
    simp at hr
  | cons r0 rest ih =>
    intro m2 h hm r hr
    cases r0 with
    | none =>
      cases hrest : mapRows f rest with
      | none =>
        rw [show mapRows f (none :: rest) = (mapRows f rest).map (none :: ·) from rfl,
          hrest] at h
        exact absurd h (by simp)
      | some m3 =>
        rw [show mapRows f (none :: rest) = (mapRows f rest).map (none :: ·) from rfl,
          hrest] at h
        simp only [Option.map_some', Option.some.injEq] at h
        subst h
        rcases List.mem_cons.mp hr with hr2 | hr2
        · subst hr2; exact hnone
        · exact ih m3 hrest (fun x hx => hm x (by simp [hx])) r hr2
    | some row =>
      cases hrow : f row with
      | none =>
        rw [show mapRows f (some row :: rest)
            = (match f row with
               | none => none
               | some row2 => (mapRows f rest).map (some row2 :: ·)) from rfl, hrow] at h
        exact absurd h (by simp)
      | some row2 =>
        rw [show mapRows f (some row :: rest)
            = (match f row with
               | none => none
               | some row2 => (mapRows f rest).map (some row2 :: ·)) from rfl, hrow] at h
        cases hrest : mapRows f rest with
        | none => rw [hrest] at h; exact absurd h (by simp)
        | some m3 =>
          rw [hrest] at h
          simp only [Option.map_some', Option.some.injEq] at h
          subst h
          rcases List.mem_cons.mp hr with hr2 | hr2
          · subst hr2
            exact hf row row2 (hm (some row) (by simp)) hrow
          · exact ih m3 hrest (fun x hx => hm x (by simp [hx])) r hr2

theorem set_entry_shape (avail row : Row) (rt : Nat) (b : Option Nat) (x : Option Nat)
    (hsh : row.map Option.isSome = avail.map Option.isSome)
    (ha : avail[rt]? = some b) (hb : x.isSome = b.isSome) :
    (row.set rt x).map Option.isSome = avail.map Option.isSome := by
  rw [List.map_set, hsh]
  apply set_getElem?_self
  rw [List.getElem?_map, ha, hb]
  rfl

theorem setResRow_shape (avail : Row) (rt v : Nat) (row row2 : Row)
    (hsh : row.map Option.isSome = avail.map Option.isSome)
    (hf : setResRow rt row = some row2) :
    row2.map Option.isSome = (avail.set rt (some v)).map Option.isSome := by
  unfold setResRow at hf
  split at hf
  · simp only [Option.some.injEq] at hf
    subst hf
    rw [List.map_set, List.map_set, hsh]
    rfl
  · exact absurd hf (by simp)

theorem extendResRow_shape (avail : Row) (rt v : Nat) (row row2 : Row)
    (hsh : row.map Option.isSome = avail.map Option.isSome)
    (hf : extendResRow rt row = some row2) :
    row2.map Option.isSome
      = (avail ++ List.replicate (rt - avail.length) none ++ [some v]).map Option.isSome := by
  unfold extendResRow at hf
  split at hf
  · simp only [Option.some.injEq] at hf
    subst hf
    have hlen : row.length = avail.length := by
      have := congrArg List.length hsh
      simpa using this
    simp [List.map_append, List.map_replicate, hsh, hlen]
  · exact absurd hf (by simp)

theorem addRes_inv (s : DLDCB) (hInv : Inv s) (rt v : Nat) (s2 : DLDCB)
    (h : addRes s rt v = some s2) : Inv s2 := by
  unfold addRes at h
  split at h
  · split at h
    · split at h
      · next al nd hal hnd =>
        simp only [Option.some.injEq] at h
        subst h
        constructor
        · refine mapRows_preserve (setResRow rt) (fun r => rowOkB s.avail r = true)
            (fun r => rowOkB (s.avail.set rt (some v)) r = true) rfl ?_ s.alloc al hal hInv.1
          intro row row2 hP hf
          rw [rowOkB_iff] at hP ⊢
          exact setResRow_shape s.avail rt v row row2 hP hf
        · refine mapRows_preserve (setResRow rt) (fun r => rowOkB s.avail r = true)
            (fun r => rowOkB (s.avail.set rt (some v)) r = true) rfl ?_ s.need nd hnd hInv.2
          intro row row2 hP hf
          rw [rowOkB_iff] at hP ⊢
          exact setResRow_shape s.avail rt v row row2 hP hf
      · exact absurd h (by simp)
    · exact absurd h (by simp)
  · split at h
    · next al nd hal hnd =>
      simp only [Option.some.injEq] at h
      subst h
      constructor
      · refine mapRows_preserve (extendResRow rt) (fun r => rowOkB s.avail r = true)
          (fun r => rowOkB
            (s.avail ++ List.replicate (rt - s.avail.length) none ++ [some v]) r = true)
          rfl ?_ s.alloc al hal hInv.1
        intro row row2 hP hf
        rw [rowOkB_iff] at hP ⊢
        exact extendResRow_shape s.avail rt v row row2 hP hf
      · refine mapRows_preserve (extendResRow rt) (fun r => rowOkB s.avail r = true)
          (fun r => rowOkB
            (s.avail ++ List.replicate (rt - s.avail.length) none ++ [some v]) r = true)
          rfl ?_ s.need nd hnd hInv.2
        intro row row2 hP hf
        rw [rowOkB_iff] at hP ⊢
        exact extendResRow_shape s.avail rt v row row2 hP hf
    · exact absurd h (by simp)

end Banker

namespace Banker

theorem getResource_ok (s : DLDCB) (hInv : Inv s) (hNG : NoGaps s) (req tid rt a : Nat)
    (ha : s.avail[rt]? = some (some a)) (htid : tid < s.alloc.length) :
    ∃ p, getResource s req tid rt = some p ∧ Inv p.1 := by
  obtain ⟨hlenEq, hallocPres, hneedPres⟩ := hNG
  cases hat : s.alloc[tid]? with
  | none =>
    exfalso
    have := List.getElem?_eq_none_iff.mp hat
    omega
  | some r =>
    have hrs := hallocPres r (List.getElem?_mem hat)
    cases r with
    | none => simp at hrs
    | some allocRow =>
      cases hnt : s.need[tid]? with
      | none =>
        exfalso
        have := List.getElem?_eq_none_iff.mp hnt
        omega
      | some r2 =>
        have hrs2 := hneedPres r2 (List.getElem?_mem hnt)
        cases r2 with
        | none => simp at hrs2
        | some needRow =>
          have hshA : allocRow.map Option.isSome = s.avail.map Option.isSome :=
            (rowOkB_iff _ _).mp (hInv.1 _ (List.getElem?_mem hat))
          have hshN : needRow.map Option.isSome = s.avail.map Option.isSome :=
            (rowOkB_iff _ _).mp (hInv.2 _ (List.getElem?_mem hnt))
          obtain ⟨g, hg⟩ := shape_transfer s.avail allocRow hshA.symm rt a ha
          obtain ⟨f, hf⟩ := shape_transfer s.avail needRow hshN.symm rt a ha
          simp only [getResource, ha, hat, hnt, hg, hf]
          by_cases hreq : a < req
          · rw [if_pos hreq]
            have hinv2 : Inv ⟨s.avail, s.alloc,
                s.need.set tid (some (needRow.set rt (some req)))⟩ := by
              refine ⟨hInv.1, ?_⟩
              intro r hr
              rcases List.mem_or_eq_of_mem_set hr with hr2 | hr2
              · exact hInv.2 r hr2
              · subst hr2
                rw [rowOkB_iff]
                exact set_entry_shape s.avail needRow rt (some a) (some req) hshN ha rfl
            obtain ⟨fin2, hsl⟩ := safetyLoop_ok
              (s.need.set tid (some (needRow.set rt (some req)))) s.alloc s.avail
              hinv2.2 hallocPres hInv.1 (by simp; omega)
              ((List.replicate s.alloc.length false).count false) s.avail
              (List.replicate s.alloc.length false) rfl rfl (by simp)
            rw [hsl]
            show ∃ p, (if (fin2.any fun x => !x) = true then some (s, -1)
                else some ((⟨s.avail, s.alloc,
                  s.need.set tid (some (needRow.set rt (some req)))⟩ : DLDCB), 0))
                = some p ∧ Inv p.1
            by_cases hany : (fin2.any fun x => !x) = true
            · rw [if_pos hany]
              exact ⟨(s, -1), rfl, hInv⟩
            · rw [if_neg hany]
              exact ⟨_, rfl, hinv2⟩
          · rw [if_neg hreq]
            have havl2 : (s.avail.set rt (some (a - req))).map Option.isSome
                = s.avail.map Option.isSome := set_shape_self s.avail rt a (a - req) ha
            have hinv2 : Inv ⟨s.avail.set rt (some (a - req)),
                s.alloc.set tid (some (allocRow.set rt (some ((g + req) % W64)))),
                s.need.set tid (some (needRow.set rt (some 0)))⟩ := by
              constructor
              · intro r hr
                rw [rowOkB_shape_congr _ s.avail havl2 r]
                rcases List.mem_or_eq_of_mem_set hr with hr2 | hr2
                · exact hInv.1 r hr2
                · subst hr2
                  rw [rowOkB_iff]
                  exact set_entry_shape s.avail allocRow rt (some a) (some ((g + req) % W64))
                    hshA ha rfl
              · intro r hr
                rw [rowOkB_shape_congr _ s.avail havl2 r]
                rcases List.mem_or_eq_of_mem_set hr with hr2 | hr2
                · exact hInv.2 r hr2
                · subst hr2
                  rw [rowOkB_iff]
                  exact set_entry_shape s.avail needRow rt (some a) (some 0) hshN ha rfl
            obtain ⟨fin2, hsl⟩ := safetyLoop_ok
              (s.need.set tid (some (needRow.set rt (some 0))))
              (s.alloc.set tid (some (allocRow.set rt (some ((g + req) % W64))))) s.avail
              (fun r hr => by
                rcases List.mem_or_eq_of_mem_set hr with hr2 | hr2
                · exact hInv.2 r hr2
                · subst hr2
                  rw [rowOkB_iff]
                  exact set_entry_shape s.avail needRow rt (some a) (some 0) hshN ha rfl)
              (fun r hr => by
                rcases List.mem_or_eq_of_mem_set hr with hr2 | hr2
                · exact hallocPres r hr2
                · subst hr2; rfl)
              (fun r hr => by
                rcases List.mem_or_eq_of_mem_set hr with hr2 | hr2
                · exact hInv.1 r hr2
                · subst hr2
                  rw [rowOkB_iff]
                  exact set_entry_shape s.avail allocRow rt (some a) (some ((g + req) % W64))
                    hshA ha rfl)
              (by simp; omega)
              ((List.replicate (s.alloc.set tid
                (some (allocRow.set rt (some ((g + req) % W64))))).length false).count false)
              (s.avail.set rt (some (a - req)))
              (List.replicate (s.alloc.set tid
                (some (allocRow.set rt (some ((g + req) % W64))))).length false)
              rfl havl2 (by simp)
            rw [hsl]
            show ∃ p, (if (fin2.any fun x => !x) = true then some (s, -1)
                else some ((⟨s.avail.set rt (some (a - req)),
                  s.alloc.set tid (some (allocRow.set rt (some ((g + req) % W64)))),
                  s.need.set tid (some (needRow.set rt (some 0)))⟩ : DLDCB), 0))
                = some p ∧ Inv p.1
            by_cases hany : (fin2.any fun x => !x) = true
            · rw [if_pos hany]
              exact ⟨(s, -1), rfl, hInv⟩
            · rw [if_neg hany]
              exact ⟨_, rfl, hinv2⟩

theorem releaseResource_ok (s : DLDCB) (hInv : Inv s) (amt tid rt a : Nat) (allocRow : Row)
    (ha : s.avail[rt]? = some (some a)) (hat : s.alloc[tid]? = some (some allocRow))
    (hnt : ∃ r, s.need[tid]? = some (some r)) :
    ∃ s2, releaseResource s amt tid rt = some s2 ∧ Inv s2 := by
  obtain ⟨nr, hnr⟩ := hnt
  have hshA : allocRow.map Option.isSome = s.avail.map Option.isSome :=
    (rowOkB_iff _ _).mp (hInv.1 _ (List.getElem?_mem hat))
  obtain ⟨g, hg⟩ := shape_transfer s.avail allocRow hshA.symm rt a ha
  have havl2 : (s.avail.set rt (some ((a + amt) % W64))).map Option.isSome
      = s.avail.map Option.isSome := set_shape_self s.avail rt a ((a + amt) % W64) ha
  refine ⟨{ avail := s.avail.set rt (some ((a + amt) % W64)),
            alloc := s.alloc.set tid (some (allocRow.set rt (some (wsub64 g amt)))),
            need := s.need }, ?_, ?_, ?_⟩
  · simp only [releaseResource, ha, hat, hnr, hg]
  · intro r hr
    rw [rowOkB_shape_congr _ s.avail havl2 r]
    rcases List.mem_or_eq_of_mem_set hr with hr2 | hr2
    · exact hInv.1 r hr2
    · subst hr2
      rw [rowOkB_iff]
      exact set_entry_shape s.avail allocRow rt (some a) (some (wsub64 g amt)) hshA ha rfl
  · intro r hr
    rw [rowOkB_shape_congr _ s.avail havl2 r]
    exact hInv.2 r hr

/-- C9 (amended): every `DLDCBInner` operation preserves the shape
invariant (present rows have `avail`'s length and are `Some` exactly
where `avail` is), and the unwraps of `get_resource` cannot panic only
under the additional hypothesis that no thread slot is absent
(`NoGaps`) — absent slots, which the invariant allows, make the safety
check panic — while `release_resource`'s unwraps are already safe under
the invariant and its entry assertions. -/
theorem c9_shape_invariant (s : DLDCB) (hInv : Inv s) :
    (∀ id s2, addThread s id = some s2 → Inv s2) ∧
    (∀ rt v s2, addRes s rt v = some s2 → Inv s2) ∧
    (∀ req tid rt a, NoGaps s → s.avail[rt]? = some (some a) → tid < s.alloc.length →
      ∃ p, getResource s req tid rt = some p ∧ Inv p.1) ∧
    (∀ amt tid rt a allocRow, s.avail[rt]? = some (some a) →
      s.alloc[tid]? = some (some allocRow) → (∃ r, s.need[tid]? = some (some r)) →
      ∃ s2, releaseResource s amt tid rt = some s2 ∧ Inv s2) :=
  ⟨fun id s2 h => addThread_inv s hInv id s2 h,
   fun rt v s2 h => addRes_inv s hInv rt v s2 h,
   fun req tid rt a hNG ha2 htid => getResource_ok s hInv hNG req tid rt a ha2 htid,
   fun amt tid rt a row ha2 hat hnt => releaseResource_ok s hInv amt tid rt a row ha2 hat hnt⟩

/-- C9 witness: a one-thread, one-resource state in which the
(amended) theorem yields a non-panicking `get_resource`. -/
theorem c9_shape_invariant_witness :
    Inv ⟨[some 1], [some [some 0]], [some [some 0]]⟩ ∧
    NoGaps ⟨[some 1], [some [some 0]], [some [some 0]]⟩ ∧
    (∃ p, getResource ⟨[some 1], [some [some 0]], [some [some 0]]⟩ 1 0 0 = some p ∧ Inv p.1) := by
  refine ⟨by decide, by decide, ?_⟩
  exact (c9_shape_invariant ⟨[some 1], [some [some 0]], [some [some 0]]⟩
    (by decide)).2.2.1 1 0 0 1 (by decide) rfl (by decide)

end Banker

namespace Sched

theorem nth_set (l : List PT) (i j : Nat) (x : PT) :
    nth (l.set i x) j = if i = j ∧ i < l.length then x else nth l j := by
  unfold nth
  rw [List.getD_eq_getElem?_getD, List.getD_eq_getElem?_getD, List.getElem?_set]
  by_cases h1 : i = j
  · subst h1
    by_cases h2 : i < l.length
    · rw [if_pos rfl, if_pos h2, if_pos ⟨rfl, h2⟩]
      rfl
    · rw [if_pos rfl, if_neg h2, if_neg (fun hc => h2 hc.2)]
      rw [List.getElem?_eq_none (by omega)]
  · rw [if_neg h1, if_neg (fun hc => h1 hc.1)]

theorem nth_set_ne (l : List PT) (i j : Nat) (x : PT) (h : i ≠ j) :
    nth (l.set i x) j = nth l j := by
  rw [nth_set, if_neg (fun hc => h hc.1)]

theorem nth_set_self (l : List PT) (i : Nat) (x : PT) (h : i < l.length) :
    nth (l.set i x) i = x := by
  rw [nth_set, if_pos ⟨rfl, h⟩]

theorem siftUpGo_length (l : List PT) (elt : PT) (pos : Nat) :
    (siftUpGo l elt pos).length = l.length := by
  induction pos using Nat.strong_induction_on generalizing l with
  | _ pos ih =>
    rw [siftUpGo]
    by_cases h0 : pos = 0
    · rw [if_pos h0]
      simp
    · rw [if_neg h0]
      cases hp : l[(pos - 1) / 2]? with
      | none => simp
      | some p =>
        by_cases hle : hLe elt p
        · simp [hle]
        · simp only [hle, Bool.false_eq_true, if_false]
          rw [ih ((pos - 1) / 2) (by omega)]
          simp

theorem isHeap_root_min (l : List PT) (h : IsHeap l) :
    ∀ j, j < l.length → (nth l 0).1 ≤ (nth l j).1 := by
  intro j
  induction j using Nat.strong_induction_on with
  | _ j ih =>
    intro hj
    cases Nat.eq_zero_or_pos j with
    | inl h0 => subst h0; exact le_refl _
    | inr hpos =>
      have hpar : (j - 1) / 2 < j := by omega
      exact le_trans (ih ((j - 1) / 2) hpar (by omega)) (h j hj hpos)

theorem mem_iff_nth (l : List PT) (e : PT) :
    e ∈ l ↔ ∃ j, j < l.length ∧ nth l j = e := by
  constructor
  · intro he
    obtain ⟨j, hj, hje⟩ := List.mem_iff_getElem.mp he
    refine ⟨j, hj, ?_⟩
    unfold nth
    rw [List.getD_eq_getElem?_getD, List.getElem?_eq_getElem hj, hje]
    rfl
  · intro ⟨j, hj, hje⟩
    have : l[j]? = some e := by
      unfold nth at hje
      rw [List.getD_eq_getElem?_getD, List.getElem?_eq_getElem hj] at hje
      rw [List.getElem?_eq_getElem hj]
      exact congrArg some hje
    exact List.getElem?_mem this

end Sched

namespace Sched

theorem siftUpGo_isHeap (elt : PT) (pos : Nat) :
    ∀ (l : List PT), pos < l.length → UpInv l elt pos → HoleBelow l pos →
      IsHeap (siftUpGo l elt pos) := by
  induction pos using Nat.strong_induction_on with
  | _ pos ih =>
    intro l hpos h1 h2
    unfold UpInv at h1
    unfold HoleBelow at h2
    rw [siftUpGo]
    by_cases h0 : pos = 0
    · subst h0
      rw [if_pos rfl]
      unfold IsHeap
      intro j hj hj0
      rw [List.length_set] at hj
      exact h1 j hj hj0 (by omega)
    · rw [if_neg h0]
      have hparlt : (pos - 1) / 2 < pos := by omega
      have hparlen : (pos - 1) / 2 < l.length := by omega
      cases hp : l[(pos - 1) / 2]? with
      | none =>
        exfalso
        have := List.getElem?_eq_none_iff.mp hp
        omega
      | some p =>
        have hpval : nth l ((pos - 1) / 2) = p := by
          unfold nth
          rw [List.getD_eq_getElem?_getD, hp]
          rfl
        show IsHeap (if hLe elt p = true then l.set pos elt
          else siftUpGo (l.set pos p) elt ((pos - 1) / 2))
        by_cases hle : hLe elt p = true
        · rw [if_pos hle]
          have hple : p.1 ≤ elt.1 := of_decide_eq_true hle
          unfold IsHeap
          intro j hj hj0
          rw [List.length_set] at hj
          by_cases hjp : j = pos
          · subst hjp
            rw [nth_set_self l j elt hpos, nth_set_ne l j ((j - 1) / 2) elt (by omega), hpval]
            exact hple
          · exact h1 j hj hj0 hjp
        · rw [if_neg hle]
          have hlt : elt.1 < p.1 := by
            unfold hLe at hle
            simp at hle
            omega
          refine ih ((pos - 1) / 2) hparlt (l.set pos p) (by rw [List.length_set]; omega)
            ?_ ?_
          · unfold UpInv
            intro j hj hj0 hjpar
            rw [List.length_set] at hj
            by_cases hjpos : j = pos
            · subst hjpos
              rw [nth_set_self (l.set j p) ((j - 1) / 2) elt
                  (by rw [List.length_set]; omega),
                nth_set_ne (l.set j p) ((j - 1) / 2) j elt (by omega),
                nth_set_self l j p hpos]
              exact le_of_lt hlt
            · by_cases hpj : (j - 1) / 2 = pos
              · rw [nth_set_ne (l.set pos p) ((pos - 1) / 2) j elt (by omega),
                  nth_set_ne l pos j p (by omega), hpj,
                  nth_set_ne (l.set pos p) ((pos - 1) / 2) pos elt (by omega),
                  nth_set_self l pos p hpos]
                have hh := h2 (by omega) j hj hpj hjpos
                rw [hpval] at hh
                exact hh
              · by_cases hpj2 : (j - 1) / 2 = (pos - 1) / 2
                · rw [nth_set_ne (l.set pos p) ((pos - 1) / 2) j elt (by omega),
                    nth_set_ne l pos j p (by omega), hpj2,
                    nth_set_self (l.set pos p) ((pos - 1) / 2) elt
                      (by rw [List.length_set]; omega)]
                  have hh := h1 j hj hj0 hjpos
                  rw [nth_set_ne l pos j elt (by omega), hpj2,
                    nth_set_ne l pos ((pos - 1) / 2) elt (by omega), hpval] at hh
                  exact le_trans (le_of_lt hlt) hh
                · rw [nth_set_ne (l.set pos p) ((pos - 1) / 2) j elt (by omega),
                    nth_set_ne l pos j p (by omega),
                    nth_set_ne (l.set pos p) ((pos - 1) / 2) ((j - 1) / 2) elt (by omega),
                    nth_set_ne l pos ((j - 1) / 2) p (by omega)]
                  have hh := h1 j hj hj0 hjpos
                  rw [nth_set_ne l pos j elt (by omega),
                    nth_set_ne l pos ((j - 1) / 2) elt (by omega)] at hh
                  exact hh
          · unfold HoleBelow
            intro hpar0 j hj hpj hjne
            rw [List.length_set] at hj
            by_cases hjpos : j = pos
            · subst hjpos
              rw [nth_set_ne l j (((j - 1) / 2 - 1) / 2) p (by omega),
                nth_set_self l j p hpos]
              have hh := h1 ((j - 1) / 2) hparlen (by omega) (by omega)
              rw [nth_set_ne l j ((j - 1) / 2) elt (by omega),
                nth_set_ne l j (((j - 1) / 2 - 1) / 2) elt (by omega), hpval] at hh
              exact hh
            · rw [nth_set_ne l pos (((pos - 1) / 2 - 1) / 2) p (by omega),
                nth_set_ne l pos j p (by omega)]
              have hh1 := h1 ((pos - 1) / 2) hparlen (by omega) (by omega)
              rw [nth_set_ne l pos ((pos - 1) / 2) elt (by omega),
                nth_set_ne l pos (((pos - 1) / 2 - 1) / 2) elt (by omega), hpval] at hh1
              have hh2 := h1 j hj (by omega) hjpos
              rw [nth_set_ne l pos j elt (by omega), hpj,
                nth_set_ne l pos ((pos - 1) / 2) elt (by omega), hpval] at hh2
              exact le_trans hh1 hh2

end Sched

namespace Sched

theorem getD_eq_nth (l : List PT) (i : Nat) : l.getD i default = nth l i := rfl

theorem nth_append_left (l : List PT) (m : List PT) (k : Nat) (hk : k < l.length) :
    nth (l ++ m) k = nth l k := by
  unfold nth
  rw [List.getD_eq_getElem?_getD, List.getD_eq_getElem?_getD, List.getElem?_append, if_pos hk]

theorem pushH_isHeap (l : List PT) (x : PT) (h : IsHeap l) : IsHeap (pushH l x) := by
  unfold pushH
  refine siftUpGo_isHeap x l.length (l ++ [x]) (by simp) ?_ ?_
  · unfold UpInv
    intro j hj hj0 hjp
    rw [List.length_append] at hj
    have hjlt : j < l.length := by simp at hj; omega
    rw [Banker.set_getElem?_self (l ++ [x]) l.length x (List.getElem?_concat_length l x)]
    rw [nth_append_left l [x] j hjlt, nth_append_left l [x] ((j - 1) / 2) (by omega)]
    exact h j hjlt hj0
  · unfold HoleBelow
    intro hpos0 j hj hpj hjne
    exfalso
    rw [List.length_append] at hj
    simp at hj
    omega

theorem siftDownGo_spec :
    ∀ (m : Nat) (l : List PT) (pos : Nat), l.length - pos = m → pos < l.length →
      DownInv l pos → HoleBelow l pos →
      ((siftDownGo l pos).1.length = l.length ∧
       (siftDownGo l pos).2 < l.length ∧
       l.length ≤ 2 * (siftDownGo l pos).2 + 1 ∧
       DownInv (siftDownGo l pos).1 (siftDownGo l pos).2 ∧
       HoleBelow (siftDownGo l pos).1 (siftDownGo l pos).2) := by
  intro m
  induction m using Nat.strong_induction_on with
  | _ m ih =>
    intro l pos hm hpos hJ1 hJ2
    unfold DownInv at hJ1
    unfold HoleBelow at hJ2
    rw [siftDownGo]
    by_cases hA : 2 * pos + 2 < l.length
    · rw [dif_pos hA]
      simp only [getD_eq_nth]
      by_cases hab : hLe (nth l (2 * pos + 1)) (nth l (2 * pos + 2)) = true
      · rw [if_pos hab]
        have hmc : (nth l (2 * pos + 2)).1 ≤ (nth l (2 * pos + 1)).1 :=
          of_decide_eq_true hab
        have hrec := ih (l.length - (2 * pos + 2)) (by omega)
          (l.set pos (nth l (2 * pos + 2))) (2 * pos + 2)
          (by rw [List.length_set]) (by rw [List.length_set]; omega) ?_ ?_
        · rw [List.length_set] at hrec
          exact hrec
        · unfold DownInv
          intro j hj hj0 hjne hpjne
          rw [List.length_set] at hj
          by_cases hjpos : j = pos
          · subst hjpos
            rw [nth_set_self l j (nth l (2 * j + 2)) hpos,
              nth_set_ne l j ((j - 1) / 2) (nth l (2 * j + 2)) (by omega)]
            have hh := hJ2 (by omega) (2 * j + 2) (by omega) (by omega) (by omega)
            exact hh
          · by_cases hpj : (j - 1) / 2 = pos
            · have hj_eq : j = 2 * pos + 1 := by omega
              subst hj_eq
              rw [nth_set_ne l pos (2 * pos + 1) (nth l (2 * pos + 2)) (by omega), hpj,
                nth_set_self l pos (nth l (2 * pos + 2)) hpos]
              exact hmc
            · rw [nth_set_ne l pos j (nth l (2 * pos + 2)) (by omega),
                nth_set_ne l pos ((j - 1) / 2) (nth l (2 * pos + 2)) (by omega)]
              exact hJ1 j hj hj0 hjpos hpj
        · unfold HoleBelow
          intro _ j hj hpj hjne
          rw [List.length_set] at hj
          have hpar : (2 * pos + 2 - 1) / 2 = pos := by omega
          rw [hpar, nth_set_self l pos (nth l (2 * pos + 2)) hpos,
            nth_set_ne l pos j (nth l (2 * pos + 2)) (by omega)]
          have hh := hJ1 j hj (by omega) (by omega) (by omega)
          rw [hpj] at hh
          exact hh
      · rw [if_neg hab]
        have hmc : (nth l (2 * pos + 1)).1 ≤ (nth l (2 * pos + 2)).1 := by
          unfold hLe at hab
          simp at hab
          omega
        have hrec := ih (l.length - (2 * pos + 1)) (by omega)
          (l.set pos (nth l (2 * pos + 1))) (2 * pos + 1)
          (by rw [List.length_set]) (by rw [List.length_set]; omega) ?_ ?_
        · rw [List.length_set] at hrec
          exact hrec
        · unfold DownInv
          intro j hj hj0 hjne hpjne
          rw [List.length_set] at hj
          by_cases hjpos : j = pos
          · subst hjpos
            rw [nth_set_self l j (nth l (2 * j + 1)) hpos,
              nth_set_ne l j ((j - 1) / 2) (nth l (2 * j + 1)) (by omega)]
            exact hJ2 (by omega) (2 * j + 1) (by omega) (by omega) (by omega)
          · by_cases hpj : (j - 1) / 2 = pos
            · have hj_eq : j = 2 * pos + 2 := by omega
              subst hj_eq
              rw [nth_set_ne l pos (2 * pos + 2) (nth l (2 * pos + 1)) (by omega), hpj,
                nth_set_self l pos (nth l (2 * pos + 1)) hpos]
              exact hmc
            · rw [nth_set_ne l pos j (nth l (2 * pos + 1)) (by omega),
                nth_set_ne l pos ((j - 1) / 2) (nth l (2 * pos + 1)) (by omega)]
              exact hJ1 j hj hj0 hjpos hpj
        · unfold HoleBelow
          intro _ j hj hpj hjne
          rw [List.length_set] at hj
          have hpar : (2 * pos + 1 - 1) / 2 = pos := by omega
          rw [hpar, nth_set_self l pos (nth l (2 * pos + 1)) hpos,
            nth_set_ne l pos j (nth l (2 * pos + 1)) (by omega)]
          have hh := hJ1 j hj (by omega) (by omega) (by omega)
          rw [hpj] at hh
          exact hh
    · rw [dif_neg hA]
      by_cases hB : 2 * pos + 2 = l.length
      · rw [dif_pos hB]
        simp only [getD_eq_nth]
        refine ⟨by simp, by omega, by omega, ?_, ?_⟩
        · unfold DownInv
          intro j hj hj0 hjne hpjne
          rw [List.length_set] at hj
          by_cases hjpos : j = pos
          · subst hjpos
            rw [nth_set_self l j (nth l (2 * j + 1)) hpos,
              nth_set_ne l j ((j - 1) / 2) (nth l (2 * j + 1)) (by omega)]
            exact hJ2 (by omega) (2 * j + 1) (by omega) (by omega) (by omega)
          · by_cases hpj : (j - 1) / 2 = pos
            · exfalso
              omega
            · rw [nth_set_ne l pos j (nth l (2 * pos + 1)) (by omega),
                nth_set_ne l pos ((j - 1) / 2) (nth l (2 * pos + 1)) (by omega)]
              exact hJ1 j hj hj0 hjpos hpj
        · unfold HoleBelow
          intro _ j hj hpj hjne
          exfalso
          rw [List.length_set] at hj
          omega
      · rw [dif_neg hB]
        exact ⟨rfl, hpos, by omega, hJ1, hJ2⟩

end Sched

namespace Sched

theorem siftDown_isHeap (l : List PT) (elt : PT) (hne : 0 < l.length)
    (hJ1 : DownInv l 0) : IsHeap (siftDown l elt) := by
  unfold siftDown
  obtain ⟨hlen, hplt, hchild, hD1, hD2⟩ :=
    siftDownGo_spec (l.length - 0) l 0 rfl hne hJ1 (fun h0 => absurd h0 (lt_irrefl 0))
  refine siftUpGo_isHeap elt (siftDownGo l 0).2 (siftDownGo l 0).1 (by omega) ?_ hD2
  unfold UpInv
  intro j hj hj0 hjne
  rw [hlen] at hj
  by_cases hpj : (j - 1) / 2 = (siftDownGo l 0).2
  · exfalso
    omega
  · rw [nth_set_ne (siftDownGo l 0).1 (siftDownGo l 0).2 j elt (by omega),
      nth_set_ne (siftDownGo l 0).1 (siftDownGo l 0).2 ((j - 1) / 2) elt (by omega)]
    unfold DownInv at hD1
    exact hD1 j (by omega) hj0 (by omega) hpj

theorem popHeap_spec (l : List PT) (h : IsHeap l) (hne : l ≠ []) :
    ∃ x l2, popHeap l = some (x, l2) ∧ x ∈ l ∧ (∀ e ∈ l, x.1 ≤ e.1) ∧ IsHeap l2 := by
  unfold popHeap
  cases hlast : l.getLast? with
  | none => exact absurd (List.getLast?_eq_none_iff.mp hlast) hne
  | some item =>
    obtain ⟨ys, hys⟩ := List.getLast?_eq_some_iff.mp hlast
    have hdl : l.dropLast = ys := by
      rw [hys, List.dropLast_concat]
    cases hys2 : ys with
    | nil =>
      rw [hdl, hys2]
      subst hys2
      refine ⟨item, [], rfl, by simp [hys], ?_, ?_⟩
      · intro e he
        rw [hys] at he
        simp at he
        subst he
        exact le_refl _
      · intro j hj hj0
        simp at hj
    | cons r0 rest =>
      rw [hdl, hys2]
      subst hys2
      have hlen0 : 0 < l.length := by rw [hys]; simp
      have hnth0 : nth l 0 = r0 := by
        rw [hys]
        rfl
      refine ⟨r0, _, rfl, ?_, ?_, ?_⟩
      · rw [← hnth0]
        exact (mem_iff_nth l (nth l 0)).mpr ⟨0, hlen0, rfl⟩
      · intro e he
        obtain ⟨j, hj, hje⟩ := (mem_iff_nth l e).mp he
        rw [← hnth0, ← hje]
        exact isHeap_root_min l h j hj
      · apply siftDown_isHeap
        · simp
        · unfold DownInv
          intro j hj hj0 hjne hpjne
          rw [List.length_set] at hj
          rw [nth_set_ne (r0 :: rest) 0 j item (by omega),
            nth_set_ne (r0 :: rest) 0 ((j - 1) / 2) item (by omega)]
          have hjl : j < l.length := by
            rw [hys, List.length_append, List.length_cons]
            simp only [List.length_cons] at hj
            omega
          have hnj : nth (r0 :: rest) j = nth l j := by
            rw [hys, nth_append_left (r0 :: rest) [item] j (by simpa using hj)]
          have hnp : nth (r0 :: rest) ((j - 1) / 2) = nth l ((j - 1) / 2) := by
            rw [hys, nth_append_left (r0 :: rest) [item] ((j - 1) / 2)
              (by simp only [List.length_cons] at hj ⊢; omega)]
          rw [hnj, hnp]
          exact h j hjl hj0

theorem reach_isHeap (l : List PT) (hr : Reach l) : IsHeap l := by
  induction hr with
  | nil => intro j hj _; simp at hj
  | push l x _ ih => exact pushH_isHeap l x ih
  | pop l x l2 _ hpop ih =>
    by_cases hne : l = []
    · subst hne
      simp [popHeap] at hpop
    · obtain ⟨x2, l3, hp2, -, -, hheap⟩ := popHeap_spec l ih hne
      rw [hpop] at hp2
      obtain ⟨-, h2⟩ := Prod.mk.injEq .. ▸ (Option.some_inj.mp hp2)
      rw [← h2] at hheap
      exact hheap

end Sched

namespace Sched

/-- C2 counterexample: four tasks with equal stride 5 are added in tag
order 0, 1, 2, 3.  The first fetch returns task 0; the second fetch
returns task 2 even though task 1 — inserted earlier, with the same
minimal stride — is still queued, so the tie-break is not FIFO. -/
theorem c2_fetch_not_fifo :
    pushH (pushH (pushH (pushH [] (5, 0)) (5, 1)) (5, 2)) (5, 3)
      = [(5, 0), (5, 1), (5, 2), (5, 3)] ∧
    popHeap [(5, 0), (5, 1), (5, 2), (5, 3)] = some ((5, 0), [(5, 2), (5, 1), (5, 3)]) ∧
    popHeap [(5, 2), (5, 1), (5, 3)] = some ((5, 2), [(5, 1), (5, 3)]) ∧
    (5, 1) ∈ [(5, 2), (5, 1), (5, 3)] ∧ ((5, 2) : PT) ≠ (5, 1) := by
  refine ⟨?_, ?_, ?_, by decide, by decide⟩ <;>
    simp [pushH, popHeap, siftDown, siftDownGo, siftUpGo, hLe]

/-- C2 (amended): on every reachable non-empty ready queue,
`TaskManager::fetch` returns a queued task whose stride is minimal
among all queued tasks; when several tasks share the minimal stride the
choice is determined by the binary-heap layout, not by FIFO insertion
order. -/
theorem c2_fetch_min_stride (q : List PT) (hq : Reach q) (hne : q ≠ []) :
    ∃ x q2, popHeap q = some (x, q2) ∧ x ∈ q ∧ ∀ e ∈ q, x.1 ≤ e.1 := by
  obtain ⟨x, q2, hp, hmem, hmin, -⟩ := popHeap_spec q (reach_isHeap q hq) hne
  exact ⟨x, q2, hp, hmem, hmin⟩

/-- C2 (amended) witness: the queue obtained by adding tasks with
strides 3 and 1; fetch must return the stride-1 task. -/
theorem c2_fetch_min_stride_witness :
    Reach (pushH (pushH [] (3, 0)) (1, 1)) ∧
    pushH (pushH [] (3, 0)) (1, 1) ≠ [] ∧
    (∃ x q2, popHeap (pushH (pushH [] (3, 0)) (1, 1)) = some (x, q2) ∧
      x ∈ pushH (pushH [] (3, 0)) (1, 1) ∧
      ∀ e ∈ pushH (pushH [] (3, 0)) (1, 1), x.1 ≤ e.1) := by
  have hr : Reach (pushH (pushH [] (3, 0)) (1, 1)) :=
    Reach.push _ _ (Reach.push _ _ Reach.nil)
  have hne : pushH (pushH [] (3, 0)) (1, 1) ≠ [] := by
    simp [pushH, siftUpGo, hLe]
  exact ⟨hr, hne, c2_fetch_min_stride (pushH (pushH [] (3, 0)) (1, 1)) hr hne⟩

end Sched
